import Mathlib

/-
  Verification of the Redshift EXPLAIN plan visualizer engine
  (plan parser, cost attribution, graph emitter, warning analyzer,
  plan differ) against its natural-language specification.

  The JavaScript source is embedded shallowly: strings are Lean strings
  (lists of characters), JS numbers are modelled as `Option ℚ` where
  `none` stands for NaN, and every function is a computable Lean
  definition mirroring the corresponding source function.
-/

namespace RSEV

/-- Whitespace characters recognised by the JS `\s` class (ASCII part plus
    no-break space); used by `trim` and by the indentation search. -/
def jsIsSpace (c : Char) : Bool :=
  c == ' ' || c == '\t' || c == '\n' || c == '\r' || c == '\x0b' || c == '\x0c' || c == ' '

/-- Model of `String.prototype.trim`. -/
def jsTrim (cs : List Char) : List Char :=
  ((cs.dropWhile jsIsSpace).reverse.dropWhile jsIsSpace).reverse

/-- Model of `line.search(/\S|$/)`: index of the first non-whitespace
    character, or the length for an all-whitespace line. -/
def indentOf (cs : List Char) : Nat := (cs.takeWhile jsIsSpace).length

/-- Character class `[\d.]` used by the cost regular expressions. -/
def isDigitDot (c : Char) : Bool := c.isDigit || c == '.'

def digitVal (c : Char) : Nat := c.toNat - 48

/-- Value of a string of decimal digits (base-10 accumulator). -/
def natOfDigits (ds : List Char) : Nat := ds.foldl (fun a c => 10 * a + digitVal c) 0

/-- Model of JS `parseFloat` restricted to the strings the cost regexes can
    capture (nonempty strings over digits and dots): parse the longest valid
    decimal-literal prefix; `none` models the NaN result (no valid prefix,
    e.g. `".."`). -/
def parseFloatQ (ds : List Char) : Option ℚ :=
  let ip := ds.takeWhile Char.isDigit
  let rest := ds.drop ip.length
  match rest with
  | '.' :: r2 =>
    if ip.isEmpty && (r2.takeWhile Char.isDigit).isEmpty then none
    else some ((natOfDigits ip : ℚ)
      + (natOfDigits (r2.takeWhile Char.isDigit) : ℚ)
        / ((10 : ℚ) ^ (r2.takeWhile Char.isDigit).length))
  | _ => if ip.isEmpty then none else some (natOfDigits ip : ℚ)

/-- Backtracking for group 1 of the source's cost regexp
    `/cost=([\d.]+)\\..([\d.]+)/` (note the doubled backslash: the pattern
    demands a literal `\` character, then two arbitrary non-newline
    characters, after the first digit-dot run). `k` counts the candidate
    lengths of group 1, tried longest first as a greedy group backtracks. -/
def tryCostSplit (rest : List Char) : Nat → Option (List Char)
  | 0 => none
  | k + 1 =>
    match rest.drop (k + 1) with
    | b :: c1 :: c2 :: r2 =>
      if b == '\\' && c1 != '\n' && c1 != '\r' && c2 != '\n' && c2 != '\r' then
        let g2 := r2.takeWhile isDigitDot
        if g2.isEmpty then tryCostSplit rest k else some g2
      else tryCostSplit rest k
    | _ => tryCostSplit rest k

/-- Attempt the source's cost regexp at the current position; returns the
    second capture group on success. -/
def matchCostBugAt (cs : List Char) : Option (List Char) :=
  if ("cost=").data.isPrefixOf cs then
    let rest := cs.drop 5
    tryCostSplit rest (rest.takeWhile isDigitDot).length
  else none

/-- Leftmost match of the source's cost regexp (`String.prototype.match`
    without the `g` flag finds the first occurrence). -/
def findCostBug : List Char → Option (List Char)
  | [] => none
  | c :: t =>
    match matchCostBugAt (c :: t) with
    | some g2 => some g2
    | none => findCostBug t

/-- `costMatch ? parseFloat(costMatch[2]) : 0` from the parser. -/
def extractTotalCost (content : List Char) : Option ℚ :=
  match findCostBug content with
  | some g2 => parseFloatQ g2
  | none => some 0

/-- `content.startsWith('->')`. -/
def startsArrow : List Char → Bool
  | '-' :: '>' :: _ => true
  | _ => false

/-- `content.replace(/^->\\s*/, '')` — again the doubled backslash makes the
    pattern `->` followed by a literal `\` and zero or more letters `s`; on
    ordinary plan lines it never matches and the replace is the identity. -/
def stripArrowBug (content : List Char) : List Char :=
  match content with
  | '-' :: '>' :: '\\' :: r => r.dropWhile (fun c => c == 's')
  | _ => content

def digitChar (n : Nat) : Char := Char.ofNat (48 + n)

/-- Decimal digits of `n`, most significant first, with explicit fuel so the
    definition is structurally recursive. -/
def natDigitsF : Nat → Nat → List Char
  | 0, _ => []
  | f + 1, n => if n < 10 then [digitChar n] else natDigitsF f (n / 10) ++ [digitChar (n % 10)]

def natStr (n : Nat) : String := ⟨natDigitsF (n + 1) n⟩

/-- Node identifiers `node0`, `node1`, ... generated by `idCounter++`. -/
def mkId (n : Nat) : String := "node" ++ natStr n

/-! ### JS number operations on `Option ℚ` (`none` = NaN) -/

/-- JS `a - b` (NaN propagates). -/
def jsSub (a b : Option ℚ) : Option ℚ :=
  match a, b with
  | some x, some y => some (x - y)
  | _, _ => none

/-- JS `a < b` (any comparison with NaN is false). -/
def jsLtB (a b : Option ℚ) : Bool :=
  match a, b with
  | some x, some y => decide (x < y)
  | _, _ => false

/-- JS `a > b`. -/
def jsGtB (a b : Option ℚ) : Bool :=
  match a, b with
  | some x, some y => decide (y < x)
  | _, _ => false

/-- JS `a !== b` on numbers (`NaN !== NaN` is true). -/
def jsStrictNeq (a b : Option ℚ) : Bool :=
  match a, b with
  | some x, some y => decide (x ≠ y)
  | _, _ => true

/-! ### The plan parser (`parseExplainToMermaid`, lines 108-162) -/

structure NodeInfo where
  details : List String
  totalCost : Option ℚ
  children : List String
  /-- Set by the cost-attribution pass; the placeholder value is never read
      before that pass overwrites it. -/
  exclusiveCost : Option ℚ
  deriving DecidableEq, Repr

structure PState where
  idCounter : Nat
  /-- `nodeStack`, top first; entries are (id, indentation). -/
  nodeStack : List (String × Nat)
  /-- `nodeInfos` in insertion order (JS object iteration order for the
      generated `nodeN` keys). -/
  nodeInfos : List (String × NodeInfo)
  edges : List String
  deriving DecidableEq, Repr

/-- Assoc-list lookup (JS property access `nodeInfos[id]`). -/
def lookupA (m : List (String × NodeInfo)) (k : String) : Option NodeInfo :=
  match m with
  | [] => none
  | (k1, v) :: t => if k1 == k then some v else lookupA t k

/-- Update the entry with the given key, if present (JS mutation of
    `nodeInfos[id]`; generated keys are distinct). -/
def updateA (m : List (String × NodeInfo)) (k : String) (f : NodeInfo → NodeInfo) :
    List (String × NodeInfo) :=
  match m with
  | [] => []
  | (k1, v) :: t => if k1 == k then (k1, f v) :: t else (k1, v) :: updateA t k f

/-- `while (nodeStack.length > 0 && top.indentation >= indentation) pop`. -/
def popGE (d : Nat) (st : List (String × Nat)) : List (String × Nat) :=
  st.dropWhile (fun e => decide (d ≤ e.2))

/-- One iteration of the `lines.forEach` body. -/
def processLine (st : PState) (line : String) : PState :=
  let d := indentOf line.data
  let content := jsTrim line.data
  let tc := extractTotalCost content
  if startsArrow content then
    let nodeText : String := ⟨stripArrowBug content⟩
    let id := mkId st.idCounter
    let stack1 := popGE d st.nodeStack
    let st1 :=
      match stack1 with
      | [] => st
      | (pid, _) :: _ =>
        { st with
          edges := st.edges ++ [pid ++ " --> " ++ id],
          nodeInfos := updateA st.nodeInfos pid
            (fun i => { i with children := i.children ++ [id] }) }
    { idCounter := st.idCounter + 1,
      nodeStack := (id, d) :: stack1,
      nodeInfos := st1.nodeInfos ++ [(id, ⟨[nodeText], tc, [], some 0⟩)],
      edges := st1.edges }
  else
    match st.nodeStack with
    | [] =>
      let id := mkId st.idCounter
      { idCounter := st.idCounter + 1,
        nodeStack := [(id, d)],
        nodeInfos := st.nodeInfos ++ [(id, ⟨[(⟨content⟩ : String)], tc, [], some 0⟩)],
        edges := st.edges }
    | (lastId, _) :: _ =>
      { st with
        nodeInfos := updateA st.nodeInfos lastId (fun i =>
          let i1 := { i with details := i.details ++ [(⟨content⟩ : String)] }
          -- `totalCost === 0 && totalCost > 0`: adopt a cost found on a
          -- continuation line when the node still has the default cost
          if i1.totalCost == some 0 && jsGtB tc (some 0) then
            { i1 with totalCost := tc }
          else i1) }

def initState : PState := ⟨0, [], [], []⟩

def parseCore (lines : List String) : PState := lines.foldl processLine initState

/-! ### Cost attribution (lines 164-175) -/

/-- `children.reduce((sum, id) => sum + (nodeInfos[id]?.totalCost || 0), 0)`:
    a missing child or a NaN (or zero) child cost contributes 0, so the sum
    is always an actual number. -/
def childrenSum (m : List (String × NodeInfo)) (ch : List String) : ℚ :=
  ch.foldl (fun s cid =>
    s + (match lookupA m cid with
         | some i => match i.totalCost with
                     | some v => v
                     | none => 0
         | none => 0)) 0

/-- The attribution loop only writes `exclusiveCost` and reads `totalCost`,
    so the in-place mutation is a map over the entries. -/
def attributeCosts (m : List (String × NodeInfo)) : List (String × NodeInfo) :=
  m.map (fun e =>
    let ex := jsSub e.2.totalCost (some (childrenSum m e.2.children))
    (e.1, { e.2 with exclusiveCost := if jsLtB ex (some 0) then some 0 else ex }))

/-! ### Severity thresholds (lines 177-196) -/

/-- `Object.values(nodeInfos).map(i => i.exclusiveCost).filter(c => c > 0)`:
    only actual positive numbers pass the `> 0` filter. -/
def positiveExCosts (m : List (String × NodeInfo)) : List ℚ :=
  m.filterMap (fun e =>
    match e.2.exclusiveCost with
    | some v => if 0 < v then some v else none
    | none => none)

/-- `[...new Set(l)]`: first-occurrence deduplication, with fuel for
    structural recursion. -/
def dedupFirstF : Nat → List ℚ → List ℚ
  | 0, _ => []
  | _ + 1, [] => []
  | f + 1, x :: t => x :: dedupFirstF f (t.filter (fun y => y ≠ x))

def dedupFirst (l : List ℚ) : List ℚ := dedupFirstF l.length l

/-- `.sort((a, b) => b - a)`: numeric descending sort. -/
def sortDescQ (l : List ℚ) : List ℚ := l.insertionSort (fun a b => b ≤ a)

/-- The pair (highCostThreshold, mediumCostThreshold). -/
def thresholdsOf (m : List (String × NodeInfo)) : ℚ × ℚ :=
  let all := positiveExCosts m
  if all.isEmpty then (0, 0)
  else
    let su := sortDescQ (dedupFirst all)
    let mx := (su.get? 0).getD 0
    let high := if 1 < su.length then (mx + (su.get? 1).getD 0) / 2 else 1 / 100000
    (high, mx * (33 / 100))

/-! ### Graph emitter (lines 199-217) -/

inductive Sev
  | high
  | medium
  | low
  deriving DecidableEq, Repr

/-- The if/else chain choosing a fill colour. -/
def sevClass (c high med : ℚ) : Sev :=
  if high ≤ c then .high else if med ≤ c then .medium else .low

def colorOf (theme : String) (s : Sev) : String :=
  match s with
  | .high => if theme == "dark" then "#8B0000" else "#ffcccc"
  | .medium => if theme == "dark" then "#BDB76B" else "#ffffcc"
  | .low => if theme == "dark" then "#2E8B57" else "#ccffcc"

/-- Two-digit zero padding for `toFixed(2)`. -/
def pad2 (n : Nat) : String := if n < 10 then "0" ++ natStr n else natStr n

/-- `x.toFixed(2)` on the modelled numbers (only ever applied to clamped,
    non-negative exclusive costs or to NaN). -/
def toFixed2 (x : Option ℚ) : String :=
  match x with
  | none => "NaN"
  | some q =>
    let n := (q * 100 + 1 / 2).floor.toNat
    natStr (n / 100) ++ "." ++ pad2 (n % 100)

/-- `label.replace(/"/g, '"')`: the replacement string is itself a double
    quote, so each quote is replaced by a quote. -/
def quoteReplace (s : String) : String :=
  ⟨(s.data.map (fun c => if c == '"' then ['"'] else [c])).flatten⟩

def joinSep (sep : String) : List String → String
  | [] => ""
  | [x] => x
  | x :: y :: t => x ++ sep ++ joinSep sep (y :: t)

/-- The label of one node: detail lines plus the synthesized self-cost line,
    joined by `<br/>`, with the (ineffective) quote replacement applied. -/
def labelOf (details : List String) (ex : Option ℚ) : String :=
  quoteReplace (joinSep "<br/>" (details ++ ["<b>Self Cost: " ++ toFixed2 ex ++ "</b>"]))

def nodeDecl (id : String) (i : NodeInfo) : String :=
  id ++ "[\"" ++ labelOf i.details i.exclusiveCost ++ "\"]"

def nodeDecls (m : List (String × NodeInfo)) : List String :=
  m.map (fun e => nodeDecl e.1 e.2)

def styleDecl (theme id : String) (v high med : ℚ) : String :=
  "style " ++ id ++ " fill:" ++ colorOf theme (sevClass v high med) ++ ",stroke:#333,stroke-width:2px"

/-- One style line per node with positive (hence non-NaN) exclusive cost. -/
def styleDecls (theme : String) (m : List (String × NodeInfo)) (high med : ℚ) : List String :=
  m.filterMap (fun e =>
    match e.2.exclusiveCost with
    | some v => if 0 < v then some (styleDecl theme e.1 v high med) else none
    | none => none)

/-! ### Top-level parse result -/

structure ParseResult where
  nodes : List String
  edges : List String
  styles : List String
  nodeDetailsMap : List (String × (List String × Option ℚ))
  deriving DecidableEq, Repr

/-- Split on the newline character (`text.split('\n')`). -/
def splitNl (cs : List Char) : List (List Char) :=
  match cs with
  | [] => [[]]
  | '\n' :: t => [] :: splitNl t
  | c :: t =>
    match splitNl t with
    | [] => [[c]]
    | l :: ls => (c :: l) :: ls

def linesOf (text : String) : List String :=
  ((splitNl text.data).map (fun l => (⟨l⟩ : String))).filter
    (fun l => !(jsTrim l.data).isEmpty)

def parseExplainToMermaid (text theme : String) : ParseResult :=
  let lines := linesOf text
  if lines.isEmpty then ⟨[], [], [], []⟩
  else
    let st := parseCore lines
    let m := attributeCosts st.nodeInfos
    let t := thresholdsOf m
    ⟨nodeDecls m, st.edges, styleDecls theme m t.1 t.2,
     m.map (fun e => (e.1, (e.2.details, e.2.exclusiveCost)))⟩

/-! ### Warning analyzer (`analyzePerformanceWarnings`, lines 39-105) -/

/-- The `details` property of a node handed to the analyzer, as a JS value:
    it may be absent, a (non-array) string, or an array of strings. -/
inductive DetailsVal
  | undef
  | str (s : String)
  | arr (l : List String)
  deriving DecidableEq, Repr

structure RawNode where
  detailsVal : DetailsVal
  exclusiveCost : Option ℚ
  deriving DecidableEq, Repr

/-- The safety check at the top of the loop: skip the node unless it is
    non-null with a nonempty array `details`; on success return the first
    detail line (`content`). A string value fails `Array.isArray` (and the
    empty string is falsy), so every non-array value is skipped. -/
def contentOf (n : Option RawNode) : Option String :=
  match n with
  | none => none
  | some nd =>
    match nd.detailsVal with
    | .arr (c :: _) => some c
    | _ => none

/-- Substring test (`String.prototype.includes`). -/
def hasSub (hay needle : List Char) : Bool :=
  match hay with
  | [] => needle.isEmpty
  | _ :: t => needle.isPrefixOf hay || hasSub t needle

/-- First match of `/rows=(\d+)/`: the captured digit run. -/
def findRows : List Char → Option (List Char)
  | [] => none
  | c :: t =>
    match c :: t with
    | 'r' :: 'o' :: 'w' :: 's' :: '=' :: rest =>
      match rest.takeWhile Char.isDigit with
      | [] => findRows t
      | ds => some ds
    | _ => findRows t

/-- Digit grouping of `Number.prototype.toLocaleString` in the default
    en-US locale (commas every three digits); input is the reversed digit
    list. -/
def groupRev : List Char → List Char
  | a :: b :: c :: d :: t => a :: b :: c :: ',' :: groupRev (d :: t)
  | l => l

def toLocale (n : Nat) : String := ⟨(groupRev (natDigitsF (n + 1) n).reverse).reverse⟩

inductive WType
  | warning
  | info
  deriving DecidableEq, Repr

inductive WSev
  | high
  | medium
  deriving DecidableEq, Repr

structure Warning where
  type : WType
  message : String
  severity : WSev
  nodeId : String
  deriving DecidableEq, Repr

def nestedLoopMsg : String :=
  "⚠️ Nested Loop join detected. This can be very slow if the inner table is large. Consider adding proper join conditions or indexes. [Learn more](https://docs.aws.amazon.com/redshift/latest/dg/c_Nested_loop_join.html)"

def seqScanMsg (rows : Nat) : String :=
  "⚠️ Large Seq Scan detected (" ++ toLocale rows ++ " rows). Consider adding a sort key or filter conditions to reduce the scan size. [Learn more](https://docs.aws.amazon.com/redshift/latest/dg/t_Analyzing_tables.html)"

def bcastMsg : String :=
  "ℹ️ Broadcast operation detected. Ensure the inner table being broadcast is small to avoid high network traffic. [Learn more](https://docs.aws.amazon.com/redshift/latest/dg/r_SVL_QUERY_REPORT.html#r_SVL_QUERY_REPORT-ds_bcast_inner)"

def hashMsg (ex : Option ℚ) : String :=
  "⚠️ Expensive Hash operation detected (exclusive cost: " ++ toFixed2 ex ++ "). Consider if this hash step is necessary or if the data can be pre-sorted. [Learn more](https://docs.aws.amazon.com/redshift/latest/dg/c_Hash_join.html)"

/-- The four independent rules applied to one node, in source order. -/
def nodeWarnings (nodeId : String) (n : Option RawNode) : List Warning :=
  match contentOf n with
  | none => []
  | some content =>
    let ex := match n with
              | some nd => nd.exclusiveCost
              | none => none
    (if hasSub content.data ("Nested Loop").data then
      [⟨.warning, nestedLoopMsg, .high, nodeId⟩] else [])
    ++ (if hasSub content.data ("Seq Scan").data then
          match findRows content.data with
          | some ds => if 10000 < natOfDigits ds then
              [⟨.warning, seqScanMsg (natOfDigits ds), .medium, nodeId⟩] else []
          | none => []
        else [])
    ++ (if hasSub content.data ("DS_BCAST").data then
          [⟨.info, bcastMsg, .medium, nodeId⟩] else [])
    ++ (if hasSub content.data ("Hash").data && jsGtB ex (some 50) then
          [⟨.warning, hashMsg ex, .medium, nodeId⟩] else [])

def rawWarnings (m : List (String × Option RawNode)) : List Warning :=
  (m.map (fun e => nodeWarnings e.1 e.2)).flatten

/-- `warnings.filter((w, i, self) => i === self.findIndex(v => v.message === w.message))`:
    `full` is the whole array, `i` the running index, `rem` the remaining
    suffix. -/
def keepIdx (full : List Warning) : Nat → List Warning → List Warning
  | _, [] => []
  | i, w :: ws =>
    (if full.findIdx (fun v => v.message == w.message) = i then [w] else [])
      ++ keepIdx full (i + 1) ws

def uniqueWarnings (l : List Warning) : List Warning := keepIdx l 0 l

def analyzePerformanceWarnings (m : List (String × Option RawNode)) : List Warning :=
  uniqueWarnings (rawWarnings m)

/-- The node map the app hands from the parser to the analyzer
    (`nodeDetailsMap` entries always carry an array `details`). -/
def toRawMap (m : List (String × (List String × Option ℚ))) :
    List (String × Option RawNode) :=
  m.map (fun e => (e.1, some ⟨DetailsVal.arr e.2.1, e.2.2⟩))

/-! ### Plan differ (`normalizeNode` and `comparePlans`, lines 353-452) -/

/-- Backtracking for group 1 of the correct cost regexp
    `/cost=[\d.]+\.\.[\d.]+/` used by `normalizeNode`: find the longest
    digit-dot run followed by two literal dots and a nonempty digit-dot run;
    returns the total matched length after `cost=`. -/
def tryStrip (rest : List Char) : Nat → Option Nat
  | 0 => none
  | k + 1 =>
    match rest.drop (k + 1) with
    | '.' :: '.' :: r2 =>
      let g2 := r2.takeWhile isDigitDot
      if g2.isEmpty then tryStrip rest k else some (k + 1 + 2 + g2.length)
    | _ => tryStrip rest k

def matchStripAt (cs : List Char) : Option Nat :=
  match cs with
  | 'c' :: 'o' :: 's' :: 't' :: '=' :: rest =>
    match tryStrip rest (rest.takeWhile isDigitDot).length with
    | some n => some (5 + n)
    | none => none
  | _ => none

/-- Global replace of the cost annotation by the empty string
    (`.replace(/cost=[\d.]+\.\.[\d.]+/g, '')`), fuelled for structural
    recursion; the fuel is an upper bound on the number of characters
    consumed. -/
def stripCostF : Nat → List Char → List Char
  | 0, cs => cs
  | f + 1, cs =>
    match matchStripAt cs with
    | some n => stripCostF f (cs.drop n)
    | none =>
      match cs with
      | [] => []
      | c :: t => c :: stripCostF f t

def stripCost (cs : List Char) : List Char := stripCostF cs.length cs

/-- `normalizeNode`: detail lines joined by `|` with cost annotations
    stripped (the null/missing-details guards are unreachable for parsed
    node maps, whose `details` is always a nonempty array). -/
def normalizeNode (nd : List String × Option ℚ) : String :=
  ⟨stripCost (joinSep "|" nd.1).data⟩

/-- `Map.prototype.set`: overwrite the value if the key is present (keeping
    its position), else append. -/
def mapSet (m : List (String × String)) (k v : String) : List (String × String) :=
  if m.any (fun e => e.1 == k) then
    m.map (fun e => if e.1 == k then (k, v) else e)
  else m ++ [(k, v)]

def lookupS (m : List (String × String)) (k : String) : Option String :=
  match m with
  | [] => none
  | (k1, v) :: t => if k1 == k then some v else lookupS t k

def lookupD (m : List (String × (List String × Option ℚ))) (k : String) :
    Option (List String × Option ℚ) :=
  match m with
  | [] => none
  | (k1, v) :: t => if k1 == k then some v else lookupD t k

/-- Normalized-key map of one plan: `key -> nodeId`, later nodes
    overwriting earlier ones on key collisions. -/
def normalizedMapOf (m : List (String × (List String × Option ℚ))) :
    List (String × String) :=
  m.foldl (fun acc e => mapSet acc (normalizeNode e.2) e.1) []

/-- JSON.stringify of a string array, for the order-sensitive details
    comparison (only its congruence and concrete values matter here). -/
def jsonStr (s : String) : String :=
  "\"" ++ ⟨(s.data.map (fun c =>
    if c == '"' then ['\\', '"'] else if c == '\\' then ['\\', '\\'] else [c])).flatten⟩ ++ "\""

def jsonOfDetails (l : List String) : String :=
  "[" ++ joinSep "," (l.map jsonStr) ++ "]"

/-- Classification of one plan-B key: 0 = added, 1 = changed, 2 = unchanged.
    The `getD` defaults are unreachable: every value stored in a normalized
    map is a key of its plan's node map. -/
def classifyKey (map1 : List (String × String))
    (nm1 nm2 : List (String × (List String × Option ℚ)))
    (key2 id2 : String) : Nat :=
  match lookupS map1 key2 with
  | none => 0
  | some id1 =>
    let n1 := (lookupD nm1 id1).getD ([], none)
    let n2 := (lookupD nm2 id2).getD ([], none)
    if jsonOfDetails n1.1 != jsonOfDetails n2.1 || jsStrictNeq n1.2 n2.2 then 1 else 2

/-- The four counts (added, removed, changed, unchanged) reported by
    `comparePlans` (texts assumed nonempty: the early-return alert guard is
    outside the model). -/
def comparePlanCounts (t1 t2 theme : String) : Nat × Nat × Nat × Nat :=
  let r1 := parseExplainToMermaid t1 theme
  let r2 := parseExplainToMermaid t2 theme
  let map1 := normalizedMapOf r1.nodeDetailsMap
  let map2 := normalizedMapOf r2.nodeDetailsMap
  let cls := map2.map (fun e => classifyKey map1 r1.nodeDetailsMap r2.nodeDetailsMap e.1 e.2)
  let added := (cls.filter (fun c => c == 0)).length
  let changed := (cls.filter (fun c => c == 1)).length
  let unchanged := (cls.filter (fun c => c == 2)).length
  let removed := (map1.filter (fun e => !(map2.any (fun e2 => e2.1 == e.1)))).length
  (added, removed, changed, unchanged)

/-! ## Helper lemmas -/

attribute [local semireducible] Rat.sub Rat.add Rat.mul Rat.inv

/-- The faulty cost regexp can only match a string containing a literal
    backslash. -/
theorem tryCostSplit_eq_none (rest : List Char) (h : '\\' ∉ rest) :
    ∀ k, tryCostSplit rest k = none := by
  intro k
  induction k with
  | zero => rfl
  | succ k ih =>
    rw [tryCostSplit]
    rcases hdp : rest.drop (k + 1) with _ | ⟨c1, t1⟩
    · exact ih
    · have hc1 : c1 ∈ rest := by
        have : c1 ∈ rest.drop (k + 1) := by rw [hdp]; exact List.mem_cons_self _ _
        exact List.mem_of_mem_drop this
      have hne : (c1 == '\\') = false := by
        simp only [beq_eq_false_iff_ne, ne_eq]
        exact fun hcc => h (hcc ▸ hc1)
      rcases t1 with _ | ⟨c2, t2⟩
      · exact ih
      · rcases t2 with _ | ⟨c3, t3⟩
        · exact ih
        · simp only [hne, Bool.false_and, if_false]
          exact ih

theorem matchCostBugAt_eq_none (cs : List Char) (h : '\\' ∉ cs) :
    matchCostBugAt cs = none := by
  rw [matchCostBugAt]
  split
  · exact tryCostSplit_eq_none _ (fun hm => h (List.mem_of_mem_drop hm)) _
  · rfl

theorem findCostBug_eq_none (cs : List Char) (h : '\\' ∉ cs) :
    findCostBug cs = none := by
  induction cs with
  | nil => rfl
  | cons c t ih =>
    rw [findCostBug, matchCostBugAt_eq_none _ h]
    exact ih (fun hm => h (List.mem_cons_of_mem _ hm))

/-- On any line not containing a literal backslash — in particular on every
    ordinary plan line with a `cost=A..B` annotation — the parser's cost
    extraction yields the default 0. -/
theorem extractTotalCost_of_no_backslash (content : List Char) (h : '\\' ∉ content) :
    extractTotalCost content = some 0 := by
  rw [extractTotalCost, findCostBug_eq_none _ h]

/-! ## Claim theorems -/

/-- C1: the claim says a line carrying `cost=A..B` gets inclusive cost B
    (here 59.00). In the source the regexp is written
    `/cost=([\d.]+)\\..([\d.]+)/`; the doubled backslash makes it demand a
    literal `\` character, so it never matches an ordinary annotation and
    the cost falls back to the default 0. -/
theorem c1_cost_annotation_not_extracted :
    extractTotalCost
      (jsTrim ("  ->  XN Seq Scan on a  (cost=0.00..59.00 rows=1000 width=4)").data)
      = some 0 ∧ some (59 : ℚ) ≠ some 0 := by
  constructor
  · decide
  · decide

/-- C2: the claim says the leading `->` marker is stripped from the
    operator text. The source's strip is `content.replace(/^->\\s*/, '')`,
    whose doubled backslash makes the pattern `->` followed by a literal
    backslash; on an ordinary child line it does not match, the replace is a
    no-op, and the stored first detail line still begins with `->`. -/
theorem c2_arrow_marker_not_stripped :
    (parseExplainToMermaid ("->  XN Seq Scan on a") ("light")).nodeDetailsMap
      = [("node0", (["->  XN Seq Scan on a"], some 0))] ∧
    startsArrow ("->  XN Seq Scan on a").data = true := by
  constructor
  · decide
  · decide

/-- C6: the claim says double quotes inside a label are escaped in the
    emitted node declaration. The source's escape is `.replace(/"/g, '"')`,
    which replaces a quote by a quote (a no-op), so a detail line containing
    `"b"` is emitted with its quotes intact inside the quoted label. -/
theorem c6_quotes_not_escaped :
    (parseExplainToMermaid ("a \"b\"") ("light")).nodes
      = ["node0[\"a \"b\"<br/><b>Self Cost: 0.00</b>\"]"] ∧
    '"' ∈ (labelOf ["a \"b\""] (some 0)).data := by
  constructor
  · decide
  · decide

/-- C9: input that is empty or has only whitespace lines parses to zero
    nodes, zero edges, zero styles and an empty node map without error, and
    analyzing that empty map yields zero warnings. -/
theorem c9_empty_input_empty_result (text theme : String)
    (h : ∀ l ∈ splitNl text.data, jsTrim l = []) :
    parseExplainToMermaid text theme = ⟨[], [], [], []⟩ ∧
    analyzePerformanceWarnings
      (toRawMap (parseExplainToMermaid text theme).nodeDetailsMap) = [] := by
  have hl : linesOf text = [] := by
    rw [linesOf]
    apply List.filter_eq_nil_iff.mpr
    intro a ha
    obtain ⟨l, hmem, rfl⟩ := List.mem_map.mp ha
    simp [h l hmem]
  refine ⟨?_, ?_⟩
  · rw [parseExplainToMermaid, hl]; rfl
  · rw [parseExplainToMermaid, hl]; rfl

/-- Witness for C9 at a concrete whitespace-only text. -/
theorem c9_witness :
    parseExplainToMermaid ("  \n\t ") ("light") = ⟨[], [], [], []⟩ ∧
    analyzePerformanceWarnings
      (toRawMap (parseExplainToMermaid ("  \n\t ") ("light")).nodeDetailsMap) = [] :=
  c9_empty_input_empty_result ("  \n\t ") ("light") (by decide)

/-! ### Lemmas about the differ's normalized-key maps -/

theorem in_place_keys (k v : String) :
    ∀ (m : List (String × String)),
      (m.map (fun e => if e.1 == k then (k, v) else e)).map Prod.fst
        = m.map Prod.fst := by
  intro m
  induction m with
  | nil => rfl
  | cons h t ih =>
    simp only [List.map_cons]
    rw [ih]
    by_cases hk : (h.1 == k) = true
    · have hke : h.1 = k := beq_iff_eq.mp hk
      rw [hk]
      simp [hke]
    · simp only [Bool.not_eq_true] at hk
      rw [hk]
      simp

theorem mapSet_keys (acc : List (String × String)) (k v : String) :
    (mapSet acc k v).map Prod.fst
      = if acc.any (fun e => e.1 == k) then acc.map Prod.fst
        else acc.map Prod.fst ++ [k] := by
  by_cases hc : acc.any (fun e => e.1 == k) = true
  · rw [mapSet, if_pos hc, if_pos hc]
    exact in_place_keys k v acc
  · simp only [Bool.not_eq_true] at hc
    rw [mapSet, hc]
    simp

theorem any_eq_false_notMem {acc : List (String × String)} {k : String}
    (h : acc.any (fun e => e.1 == k) = false) : k ∉ acc.map Prod.fst := by
  intro hmem
  obtain ⟨e, he, hek⟩ := List.mem_map.mp hmem
  have h2 := List.any_eq_false.mp h e he
  exact h2 (beq_iff_eq.mpr hek)

theorem fold_mapSet_keys_nodup :
    ∀ (nm : List (String × (List String × Option ℚ)))
      (acc : List (String × String)),
      (acc.map Prod.fst).Nodup →
      (((nm.foldl (fun acc e => mapSet acc (normalizeNode e.2) e.1) acc).map
          Prod.fst)).Nodup := by
  intro nm
  induction nm with
  | nil => intro acc h; exact h
  | cons e0 rest ih =>
    intro acc h
    apply ih
    rw [mapSet_keys]
    by_cases hc : acc.any (fun e => e.1 == normalizeNode e0.2) = true
    · rw [if_pos hc]; exact h
    · simp only [Bool.not_eq_true] at hc
      rw [hc]
      simp only [Bool.false_eq_true, if_false, ← List.concat_eq_append]
      exact List.Nodup.concat (any_eq_false_notMem hc) h

theorem mapSet_values_sub {acc : List (String × String)} {k v x : String} :
    x ∈ (mapSet acc k v).map Prod.snd → x ∈ acc.map Prod.snd ∨ x = v := by
  intro hx
  rw [mapSet] at hx
  split at hx
  · obtain ⟨e, he, hex⟩ := List.mem_map.mp hx
    obtain ⟨a, ha, rfl⟩ := List.mem_map.mp he
    by_cases hk : (a.1 == k) = true
    · rw [hk] at hex
      right
      exact hex.symm
    · simp only [Bool.not_eq_true] at hk
      rw [hk] at hex
      simp only [Bool.false_eq_true, if_false] at hex
      exact Or.inl (hex ▸ List.mem_map_of_mem _ ha)
  · rw [List.map_append] at hx
    rcases List.mem_append.mp hx with h1 | h2
    · exact Or.inl h1
    · right
      simpa using h2

theorem fold_mapSet_values_sub :
    ∀ (nm : List (String × (List String × Option ℚ)))
      (acc : List (String × String)),
      ∀ e ∈ nm.foldl (fun acc e => mapSet acc (normalizeNode e.2) e.1) acc,
        e.2 ∈ acc.map Prod.snd ∨ e.2 ∈ nm.map Prod.fst := by
  intro nm
  induction nm with
  | nil => intro acc e he; exact Or.inl (List.mem_map_of_mem _ he)
  | cons e0 rest ih =>
    intro acc e he
    rcases ih (mapSet acc (normalizeNode e0.2) e0.1) e he with h1 | h2
    · rcases mapSet_values_sub h1 with h3 | h4
      · exact Or.inl h3
      · right
        rw [List.map_cons, h4]
        exact List.mem_cons_self _ _
    · right
      rw [List.map_cons]
      exact List.mem_cons_of_mem _ h2

theorem lookupS_self :
    ∀ (m : List (String × String)), (m.map Prod.fst).Nodup →
      ∀ e ∈ m, lookupS m e.1 = some e.2 := by
  intro m
  induction m with
  | nil => intro _ e he; cases he
  | cons h t ih =>
    intro hnd e he
    rw [List.map_cons, List.nodup_cons] at hnd
    rcases List.mem_cons.mp he with rfl | hmem
    · rw [lookupS]
      simp
    · have hk : (h.1 == e.1) = false := by
        apply beq_eq_false_iff_ne.mpr
        intro hc
        exact hnd.1 (hc ▸ List.mem_map_of_mem _ hmem)
      rw [lookupS, hk]
      simp only [Bool.false_eq_true, if_false]
      exact ih hnd.2 e hmem

theorem lookupD_mem :
    ∀ (nm : List (String × (List String × Option ℚ))) (k : String)
      (w : List String × Option ℚ), lookupD nm k = some w → (k, w) ∈ nm := by
  intro nm
  induction nm with
  | nil => intro k w h; cases h
  | cons h t ih =>
    intro k w hl
    rw [lookupD] at hl
    split at hl
    · next heq =>
      obtain rfl : h.2 = w := by injection hl
      have hk : h.1 = k := beq_iff_eq.mp heq
      have hm : (h.1, h.2) ∈ h :: t := List.mem_cons_self h t
      rw [hk] at hm
      exact hm
    · exact List.mem_cons_of_mem _ (ih k w hl)

theorem lookupD_of_mem_keys :
    ∀ (nm : List (String × (List String × Option ℚ))) (k : String),
      k ∈ nm.map Prod.fst → ∃ w, lookupD nm k = some w := by
  intro nm
  induction nm with
  | nil => intro k h; cases h
  | cons h t ih =>
    intro k hk
    rw [lookupD]
    by_cases hek : (h.1 == k) = true
    · exact ⟨h.2, by rw [hek]; simp⟩
    · simp only [Bool.not_eq_true] at hek
      rw [hek]
      simp only [Bool.false_eq_true, if_false]
      apply ih
      rw [List.map_cons] at hk
      rcases List.mem_cons.mp hk with h1 | h2
      · exact absurd (beq_iff_eq.mpr h1.symm) (by rw [hek]; exact Bool.false_ne_true)
      · exact h2

theorem fold_mapSet_length :
    ∀ (nm : List (String × (List String × Option ℚ)))
      (acc : List (String × String)),
      (acc.map Prod.fst ++ nm.map (fun e => normalizeNode e.2)).Nodup →
      (nm.foldl (fun acc e => mapSet acc (normalizeNode e.2) e.1) acc).length
          = acc.length + nm.length := by
  intro nm
  induction nm with
  | nil => intro acc _; simp
  | cons e0 rest ih =>
    intro acc hnd
    have hnotin : normalizeNode e0.2 ∉ acc.map Prod.fst := by
      intro hmem
      rcases List.nodup_append.mp hnd with ⟨_, _, hdisj⟩
      exact hdisj hmem (by simp)
    have hany : acc.any (fun e => e.1 == normalizeNode e0.2) = false := by
      apply List.any_eq_false.mpr
      intro e he hbeq
      exact hnotin ((beq_iff_eq.mp hbeq) ▸ List.mem_map_of_mem _ he)
    have hset : mapSet acc (normalizeNode e0.2) e0.1
        = acc ++ [(normalizeNode e0.2, e0.1)] := by
      rw [mapSet, hany]
      simp
    have hnd' : ((acc ++ [(normalizeNode e0.2, e0.1)]).map Prod.fst ++
        rest.map (fun e => normalizeNode e.2)).Nodup := by
      rw [List.map_append]
      rw [List.map_cons] at hnd
      simpa [List.append_assoc] using hnd
    have hlen := ih (acc ++ [(normalizeNode e0.2, e0.1)]) hnd'
    rw [List.foldl_cons, hset, hlen]
    simp
    omega

/-- C5 counterexample: a two-node plan whose nodes normalize to the same
    key; diffing it against itself classifies only one node as unchanged,
    not two — the claim's `unchanged = total node count` fails. -/
theorem c5_counterexample :
    comparePlanCounts ("->A\n->A") ("->A\n->A") ("light") = (0, 0, 0, 1) ∧
    (parseExplainToMermaid ("->A\n->A") ("light")).nodeDetailsMap.length = 2 ∧
    (1 : Nat) ≠ 2 := by
  refine ⟨by decide, by decide, by decide⟩

/-- C5 (amended): diffing a plan against itself yields zero added, zero
    removed and zero changed nodes, and the unchanged count equals the
    number of distinct normalized node keys, provided every node's
    exclusive cost is an actual number (not NaN); if moreover no two nodes
    normalize to the same key, that count equals the total node count. -/
theorem c5_self_diff (t theme : String)
    (hnn : ∀ e ∈ (parseExplainToMermaid t theme).nodeDetailsMap, e.2.2 ≠ none) :
    comparePlanCounts t t theme
      = (0, 0, 0, (normalizedMapOf (parseExplainToMermaid t theme).nodeDetailsMap).length) ∧
    (((parseExplainToMermaid t theme).nodeDetailsMap.map (fun e => normalizeNode e.2)).Nodup →
      (normalizedMapOf (parseExplainToMermaid t theme).nodeDetailsMap).length
        = (parseExplainToMermaid t theme).nodeDetailsMap.length) := by
  constructor
  · set r := parseExplainToMermaid t theme with hr
    set nm := r.nodeDetailsMap with hnm
    set M := normalizedMapOf nm with hM
    have hkeys : (M.map Prod.fst).Nodup := by
      rw [hM, normalizedMapOf]
      exact fold_mapSet_keys_nodup nm [] (by simp)
    have hcls : ∀ e ∈ M, classifyKey M nm nm e.1 e.2 = 2 := by
      intro e he
      have hlook := lookupS_self M hkeys e he
      have hval : e.2 ∈ nm.map Prod.fst := by
        have := fold_mapSet_values_sub nm [] e (by rw [hM, normalizedMapOf] at he; exact he)
        simpa using this
      obtain ⟨w, hw⟩ := lookupD_of_mem_keys nm e.2 hval
      have hwne : w.2 ≠ none := hnn (e.2, w) (lookupD_mem nm e.2 w hw)
      obtain ⟨q, hq⟩ : ∃ q, w.2 = some q := by
        cases hwv : w.2 with
        | none => exact absurd hwv hwne
        | some q => exact ⟨q, rfl⟩
      simp [classifyKey, hlook, hw, hq, jsStrictNeq]
    simp only [comparePlanCounts]
    rw [← hr, ← hnm, ← hM]
    have hmapcls : M.map (fun e => classifyKey M nm nm e.1 e.2)
        = M.map (fun _ => 2) := by
      apply List.map_congr_left
      intro e he
      exact hcls e he
    rw [hmapcls]
    have h0 : (M.map (fun _ => (2 : Nat))).filter (fun c => c == 0) = [] := by
      apply List.filter_eq_nil_iff.mpr
      intro a ha
      obtain ⟨e, _, rfl⟩ := List.mem_map.mp ha
      decide
    have h1 : (M.map (fun _ => (2 : Nat))).filter (fun c => c == 1) = [] := by
      apply List.filter_eq_nil_iff.mpr
      intro a ha
      obtain ⟨e, _, rfl⟩ := List.mem_map.mp ha
      decide
    have h2 : (M.map (fun _ => (2 : Nat))).filter (fun c => c == 2)
        = M.map (fun _ => (2 : Nat)) := by
      apply List.filter_eq_self.mpr
      intro a ha
      obtain ⟨e, _, rfl⟩ := List.mem_map.mp ha
      decide
    have hrem : M.filter (fun e => !(M.any (fun e2 => e2.1 == e.1))) = [] := by
      apply List.filter_eq_nil_iff.mpr
      intro e he
      simp only [Bool.not_eq_true', Bool.not_eq_false]
      exact List.any_eq_true.mpr ⟨e, he, by simp⟩
    rw [h0, h1, h2, hrem]
    simp
  · intro hnd
    rw [normalizedMapOf]
    have := fold_mapSet_length (parseExplainToMermaid t theme).nodeDetailsMap []
      (by simpa using hnd)
    simpa using this

/-- Witness for C5 on the canonical example plan (four structurally distinct
    nodes, all costs actual numbers): self-diff reports (0, 0, 0, 4). -/
theorem c5_witness :
    comparePlanCounts
      ("XN Hash Join DS_BCAST_INNER  (cost=0.00..118.00 rows=1000 width=8)\n  Hash Cond: (a.id = b.id)\n  ->  XN Seq Scan on a  (cost=0.00..59.00 rows=1000 width=4)\n  ->  XN Hash  (cost=0.00..59.00 rows=1000 width=4)\n        ->  XN Seq Scan on b  (cost=0.00..59.00 rows=1000 width=4)")
      ("XN Hash Join DS_BCAST_INNER  (cost=0.00..118.00 rows=1000 width=8)\n  Hash Cond: (a.id = b.id)\n  ->  XN Seq Scan on a  (cost=0.00..59.00 rows=1000 width=4)\n  ->  XN Hash  (cost=0.00..59.00 rows=1000 width=4)\n        ->  XN Seq Scan on b  (cost=0.00..59.00 rows=1000 width=4)")
      ("light")
      = (0, 0, 0, 4) := by
  have h := c5_self_diff
    ("XN Hash Join DS_BCAST_INNER  (cost=0.00..118.00 rows=1000 width=8)\n  Hash Cond: (a.id = b.id)\n  ->  XN Seq Scan on a  (cost=0.00..59.00 rows=1000 width=4)\n  ->  XN Hash  (cost=0.00..59.00 rows=1000 width=4)\n        ->  XN Seq Scan on b  (cost=0.00..59.00 rows=1000 width=4)")
    ("light") (by decide)
  rw [h.1]
  have h4 := h.2 (by decide)
  rw [h4]
  decide

/-! ### C7: thresholds for a single positive exclusive cost -/

theorem pos_of_mem_positiveExCosts (m : List (String × NodeInfo)) :
    ∀ x ∈ positiveExCosts m, 0 < x := by
  intro x hx
  obtain ⟨e, _, heq⟩ := List.mem_filterMap.mp hx
  rcases hec : e.2.exclusiveCost with _ | v
  · rw [hec] at heq; cases heq
  · rw [hec] at heq
    by_cases hv : 0 < v
    · simp only [hv, if_true] at heq
      exact (Option.some_inj.mp heq) ▸ hv
    · simp only [hv, if_false] at heq
      cases heq

/-- C7 counterexample: a plan with exactly one positive exclusive cost,
    namely 0.000001 (reachable only through a line containing a literal
    backslash, given the broken cost regexp): the threshold pair is
    (1e-5, 0.33e-6) and the sole positive node is emitted with the
    medium-cost colour `#ffffcc`, not the high-cost colour `#ffcccc`. -/
theorem c7_counterexample :
    (positiveExCosts
      (attributeCosts (parseCore (linesOf ("q cost=1\\ab0.000001"))).nodeInfos)).length = 1 ∧
    (parseExplainToMermaid ("q cost=1\\ab0.000001") ("light")).styles
      = ["style node0 fill:#ffffcc,stroke:#333,stroke-width:2px"] ∧
    colorOf ("light") Sev.high = "#ffcccc" ∧ "#ffcccc" ≠ "#ffffcc" := by
  refine ⟨by decide, by decide, by decide, by decide⟩

/-- C7 (amended): whenever the positive exclusive costs of an attributed
    node map form the single value c, the high threshold is the constant
    1e-5, the classification of c is high exactly when c ≥ 1e-5 (and medium
    otherwise, since c ≥ 0.33·c always holds for positive c), and every
    node carrying cost c receives the corresponding style. -/
theorem c7_single_positive_cost (theme : String) (m : List (String × NodeInfo)) (c : ℚ)
    (h : positiveExCosts m = [c]) :
    (thresholdsOf m).1 = 1 / 100000 ∧
    sevClass c (thresholdsOf m).1 (thresholdsOf m).2
      = (if 1 / 100000 ≤ c then Sev.high else Sev.medium) ∧
    ∀ e ∈ m, e.2.exclusiveCost = some c →
      styleDecl theme e.1 c (thresholdsOf m).1 (thresholdsOf m).2
        ∈ styleDecls theme m (thresholdsOf m).1 (thresholdsOf m).2 := by
  have hpos : 0 < c := pos_of_mem_positiveExCosts m c (h ▸ List.mem_singleton_self c)
  have hth : thresholdsOf m = (1 / 100000, c * (33 / 100)) := by
    rw [thresholdsOf, h]
    simp [dedupFirst, dedupFirstF, sortDescQ, List.insertionSort, List.orderedInsert]
  refine ⟨by rw [hth], ?_, ?_⟩
  · rw [hth, sevClass]
    by_cases hc : 1 / 100000 ≤ c
    · rw [if_pos hc, if_pos hc]
    · rw [if_neg hc, if_neg hc, if_pos (by linarith)]
  · intro e he hex
    apply List.mem_filterMap.mpr
    exact ⟨e, he, by simp [hex, hpos]⟩

/-- Witness for C7 at a concrete single-positive-cost plan (c = 59.5). -/
theorem c7_witness :
    (thresholdsOf
      (attributeCosts (parseCore (linesOf ("q cost=1\\ab59.5"))).nodeInfos)).1 = 1 / 100000 ∧
    sevClass (119 / 2)
      (thresholdsOf (attributeCosts (parseCore (linesOf ("q cost=1\\ab59.5"))).nodeInfos)).1
      (thresholdsOf (attributeCosts (parseCore (linesOf ("q cost=1\\ab59.5"))).nodeInfos)).2
      = (if (1 : ℚ) / 100000 ≤ 119 / 2 then Sev.high else Sev.medium) := by
  have h := c7_single_positive_cost ("light")
    (attributeCosts (parseCore (linesOf ("q cost=1\\ab59.5"))).nodeInfos)
    (119 / 2) (by decide)
  exact ⟨h.1, h.2.1⟩

/-! ### C3: exclusive-cost attribution -/

theorem parseFloatQ_nonneg (ds : List Char) (v : ℚ) (h : parseFloatQ ds = some v) :
    0 ≤ v := by
  rw [parseFloatQ] at h
  split at h
  · split at h
    · cases h
    · injection h with h
      subst h
      positivity
  · split at h
    · cases h
    · injection h with h
      subst h
      positivity

theorem extractTotalCost_nonneg (content : List Char) (v : ℚ)
    (h : extractTotalCost content = some v) : 0 ≤ v := by
  rw [extractTotalCost] at h
  split at h
  · exact parseFloatQ_nonneg _ _ h
  · injection h with h
    subst h
    rfl

theorem lookupA_mem :
    ∀ (m : List (String × NodeInfo)) (k : String) (i : NodeInfo),
      lookupA m k = some i → (k, i) ∈ m := by
  intro m
  induction m with
  | nil => intro k i h; cases h
  | cons h t ih =>
    intro k i hl
    rw [lookupA] at hl
    split at hl
    · next heq =>
      obtain rfl : h.2 = i := by injection hl
      have hk : h.1 = k := beq_iff_eq.mp heq
      have hm : (h.1, h.2) ∈ h :: t := List.mem_cons_self h t
      rw [hk] at hm
      exact hm
    · exact List.mem_cons_of_mem _ (ih k i hl)

theorem updateA_mem :
    ∀ (m : List (String × NodeInfo)) (k : String) (f : NodeInfo → NodeInfo),
      ∀ e ∈ updateA m k f, ∃ e' ∈ m, e = e' ∨ e = (e'.1, f e'.2) := by
  intro m k f
  induction m with
  | nil => intro e he; cases he
  | cons h t ih =>
    intro e he
    rw [updateA] at he
    split at he
    · rcases List.mem_cons.mp he with heq | hmem
      · exact ⟨h, List.mem_cons_self h t, Or.inr heq⟩
      · exact ⟨e, List.mem_cons_of_mem _ hmem, Or.inl rfl⟩
    · rcases List.mem_cons.mp he with heq | hmem
      · exact ⟨h, List.mem_cons_self h t, Or.inl heq⟩
      · obtain ⟨e', he', hor⟩ := ih e hmem
        exact ⟨e', List.mem_cons_of_mem _ he', hor⟩

/-- Every cost stored in the node map is either NaN or non-negative. -/
def costOK (m : List (String × NodeInfo)) : Prop :=
  ∀ e ∈ m, ∀ v : ℚ, e.2.totalCost = some v → 0 ≤ v

theorem processLine_costOK (st : PState) (line : String)
    (h : costOK st.nodeInfos) : costOK (processLine st line).nodeInfos := by
  intro e he v hv
  simp only [processLine] at he
  by_cases harrow : startsArrow (jsTrim line.data) = true
  · rw [if_pos harrow] at he
    rcases hpop : popGE (indentOf line.data) st.nodeStack with _ | ⟨p, rest⟩
    · rw [hpop] at he
      simp only at he
      rcases List.mem_append.mp he with h1 | h2
      · exact h e h1 v hv
      · rw [List.mem_singleton] at h2
        rw [h2] at hv
        exact extractTotalCost_nonneg _ v hv
    · rw [hpop] at he
      simp only at he
      rcases List.mem_append.mp he with h1 | h2
      · obtain ⟨e', he', hor⟩ := updateA_mem _ _ _ e h1
        rcases hor with heq | heq
        · rw [heq] at hv
          exact h e' he' v hv
        · rw [heq] at hv
          exact h e' he' v hv
      · rw [List.mem_singleton] at h2
        rw [h2] at hv
        exact extractTotalCost_nonneg _ v hv
  · rw [if_neg harrow] at he
    rcases hstk : st.nodeStack with _ | ⟨l0, rest⟩
    · rw [hstk] at he
      simp only at he
      rcases List.mem_append.mp he with h1 | h2
      · exact h e h1 v hv
      · rw [List.mem_singleton] at h2
        rw [h2] at hv
        exact extractTotalCost_nonneg _ v hv
    · rw [hstk] at he
      simp only at he
      obtain ⟨e', he', hor⟩ := updateA_mem _ _ _ e he
      rcases hor with heq | heq
      · rw [heq] at hv
        exact h e' he' v hv
      · rw [heq] at hv
        simp only at hv
        split at hv
        · exact extractTotalCost_nonneg _ v hv
        · exact h e' he' v hv

theorem foldl_costOK :
    ∀ (lines : List String) (st : PState), costOK st.nodeInfos →
      costOK (lines.foldl processLine st).nodeInfos := by
  intro lines
  induction lines with
  | nil => intro st h; exact h
  | cons l rest ih => intro st h; exact ih _ (processLine_costOK st l h)

theorem parseCore_costOK (lines : List String) : costOK (parseCore lines).nodeInfos :=
  foldl_costOK lines initState (by intro e he; cases he)

theorem childrenSum_nonneg (m : List (String × NodeInfo)) (hok : costOK m) :
    ∀ (ch : List String), 0 ≤ childrenSum m ch := by
  have step : ∀ (ch : List String) (a : ℚ), 0 ≤ a →
      0 ≤ ch.foldl (fun s cid =>
        s + (match lookupA m cid with
             | some i => match i.totalCost with
                         | some v => v
                         | none => 0
             | none => 0)) a := by
    intro ch
    induction ch with
    | nil => intro a ha; exact ha
    | cons c rest ih =>
      intro a ha
      rw [List.foldl_cons]
      apply ih
      have haddend : (0 : ℚ) ≤ (match lookupA m c with
          | some i => match i.totalCost with
                      | some v => v
                      | none => 0
          | none => 0) := by
        rcases hl : lookupA m c with _ | i
        · exact le_rfl
        · show (0 : ℚ) ≤ (match i.totalCost with
            | some v => v
            | none => 0)
          rcases hv : i.totalCost with _ | v
          · exact le_rfl
          · exact hok (c, i) (lookupA_mem m c i hl) v hv
      linarith
  intro ch
  exact step ch 0 le_rfl

/-- C3 counterexample: the one-line plan `cost=1\ab..` (the faulty regexp
    matches thanks to the backslash, capturing `..`, and `parseFloat("..")`
    is NaN). Its single node has NaN inclusive cost, and its exclusive cost
    is NaN as well — not the claimed clamped non-negative difference of
    numbers, and not ≤ its inclusive cost under JS comparison. -/
theorem c3_counterexample :
    ¬ ∀ e ∈ attributeCosts (parseCore (linesOf ("cost=1\\ab.."))).nodeInfos,
        ∃ c : ℚ, e.2.totalCost = some c ∧
          e.2.exclusiveCost = some (max (c -
            childrenSum (parseCore (linesOf ("cost=1\\ab.."))).nodeInfos e.2.children) 0) := by
  intro h
  obtain ⟨c, hc, _⟩ :=
    h ("node0", ⟨["cost=1\\ab.."], none, [], none⟩) (by decide)
  exact Option.noConfusion hc

/-- C3 (amended): in every parsed plan, every node's exclusive cost
    satisfies: it is never negative under JS comparison, and whenever the
    node's inclusive cost is an actual number c, the exclusive cost equals
    max(c − Σ children inclusive costs, 0), which is ≥ 0 and ≤ c (children
    costs contribute their value, with NaN or missing children counting 0). -/
theorem c3_exclusive_cost_clamped (lines : List String) :
    ∀ e ∈ attributeCosts (parseCore lines).nodeInfos,
      jsLtB e.2.exclusiveCost (some 0) = false ∧
      ∀ c : ℚ, e.2.totalCost = some c →
        e.2.exclusiveCost
          = some (max (c - childrenSum (parseCore lines).nodeInfos e.2.children) 0) ∧
        (0 : ℚ) ≤ max (c - childrenSum (parseCore lines).nodeInfos e.2.children) 0 ∧
        max (c - childrenSum (parseCore lines).nodeInfos e.2.children) 0 ≤ c := by
  intro e he
  obtain ⟨e', he', rfl⟩ := List.mem_map.mp he
  have hok := parseCore_costOK lines
  have hS : 0 ≤ childrenSum (parseCore lines).nodeInfos e'.2.children :=
    childrenSum_nonneg _ hok _
  set S := childrenSum (parseCore lines).nodeInfos e'.2.children with hSdef
  constructor
  · rcases htc : e'.2.totalCost with _ | c
    · simp [jsSub, htc, jsLtB]
    · simp only [htc, jsSub, jsLtB]
      by_cases hlt : c - S < 0
      · simp [hlt]
      · simp [hlt]
  · intro c hc
    have htc : e'.2.totalCost = some c := hc
    simp only [htc, jsSub, jsLtB]
    by_cases hlt : c - S < 0
    · have hmax : max (c - S) 0 = 0 := max_eq_right (le_of_lt hlt)
      have hc0 : 0 ≤ c := hok e' he' c htc
      refine ⟨by simp [hlt, hmax], by rw [hmax], by rw [hmax]; exact hc0⟩
    · have hmax : max (c - S) 0 = c - S := max_eq_left (not_lt.mp hlt)
      refine ⟨by simp [hlt, hmax], by rw [hmax]; exact not_lt.mp hlt, ?_⟩
      rw [hmax]
      linarith

/-- Witness for C3 on a two-node plan with inclusive costs 4 (root) and 3
    (child): the root's exclusive cost is 4 − 3 = 1. -/
theorem c3_witness :
    jsLtB (("node0",
      (⟨["a cost=1\\ab4"], some 4, ["node1"], some 1⟩ : NodeInfo)).2.exclusiveCost)
      (some 0) = false ∧
    (("node0",
      (⟨["a cost=1\\ab4"], some 4, ["node1"], some 1⟩ : NodeInfo)).2.exclusiveCost
      = some (max ((4 : ℚ) -
          childrenSum (parseCore ["a cost=1\\ab4", "  ->b cost=1\\ab3"]).nodeInfos
            (("node0",
              (⟨["a cost=1\\ab4"], some 4, ["node1"], some 1⟩ : NodeInfo)).2.children)) 0) ∧
      (0 : ℚ) ≤ max ((4 : ℚ) -
          childrenSum (parseCore ["a cost=1\\ab4", "  ->b cost=1\\ab3"]).nodeInfos
            (("node0",
              (⟨["a cost=1\\ab4"], some 4, ["node1"], some 1⟩ : NodeInfo)).2.children)) 0 ∧
      max ((4 : ℚ) -
          childrenSum (parseCore ["a cost=1\\ab4", "  ->b cost=1\\ab3"]).nodeInfos
            (("node0",
              (⟨["a cost=1\\ab4"], some 4, ["node1"], some 1⟩ : NodeInfo)).2.children)) 0
        ≤ 4) := by
  have h := c3_exclusive_cost_clamped ["a cost=1\\ab4", "  ->b cost=1\\ab3"]
    ("node0", ⟨["a cost=1\\ab4"], some 4, ["node1"], some 1⟩) (by decide)
  exact ⟨h.1, h.2 4 rfl⟩

/-! ### C8: deduplication of warnings -/

theorem keepIdx_sublist (full : List Warning) :
    ∀ (rem : List Warning) (i : Nat), (keepIdx full i rem).Sublist rem := by
  intro rem
  induction rem with
  | nil => intro i; rw [keepIdx]
  | cons w ws ih =>
    intro i
    rw [keepIdx]
    by_cases hc : full.findIdx (fun v => v.message == w.message) = i
    · rw [if_pos hc]
      exact List.Sublist.cons₂ _ (ih (i + 1))
    · rw [if_neg hc]
      simp only [List.nil_append]
      exact List.Sublist.cons _ (ih (i + 1))

theorem findIdx_append_pre {p : Warning → Bool} :
    ∀ (pre rest : List Warning), (pre ++ rest).findIdx p = pre.length →
      ∀ x ∈ pre, p x = false := by
  intro pre
  induction pre with
  | nil => intro rest _ x hx; cases hx
  | cons a t ih =>
    intro rest h x hx
    rw [List.cons_append, List.findIdx_cons] at h
    by_cases hpa : p a = true
    · rw [hpa] at h
      simp at h
    · have hpa' : p a = false := by
        simpa using hpa
      rw [hpa'] at h
      simp only [cond_false, List.length_cons] at h
      rcases List.mem_cons.mp hx with rfl | hxt
      · exact hpa'
      · exact ih rest (by omega) x hxt

theorem find?_append_first {p : Warning → Bool} :
    ∀ (pre : List Warning) (w : Warning) (rest : List Warning),
      p w = true → (∀ x ∈ pre, p x = false) →
      (pre ++ w :: rest).find? p = some w := by
  intro pre
  induction pre with
  | nil =>
    intro w rest hw _
    simpa using List.find?_cons_of_pos _ hw
  | cons a t ih =>
    intro w rest hw hall
    rw [List.cons_append,
      List.find?_cons_of_neg _ (by rw [hall a (List.mem_cons_self a t)]; exact Bool.false_ne_true)]
    exact ih w rest hw (fun x hx => hall x (List.mem_cons_of_mem _ hx))

theorem keepIdx_find? :
    ∀ (rem pre : List Warning), ∀ w ∈ keepIdx (pre ++ rem) pre.length rem,
      (pre ++ rem).find? (fun v => v.message == w.message) = some w := by
  intro rem
  induction rem with
  | nil =>
    intro pre w hw
    rw [keepIdx] at hw
    cases hw
  | cons w0 ws ih =>
    intro pre w hw
    rw [keepIdx] at hw
    rcases List.mem_append.mp hw with h1 | h2
    · by_cases hc : ((pre ++ w0 :: ws).findIdx (fun v => v.message == w0.message)) = pre.length
      · rw [if_pos hc, List.mem_singleton] at h1
        subst h1
        exact find?_append_first pre w ws (beq_self_eq_true _) (findIdx_append_pre pre (w :: ws) hc)
      · rw [if_neg hc] at h1
        cases h1
    · have hre : (pre ++ [w0]) ++ ws = pre ++ w0 :: ws := by simp
      have hlen : (pre ++ [w0]).length = pre.length + 1 := by simp
      rw [← hre]
      apply ih (pre ++ [w0]) w
      rw [hre, hlen]
      exact h2

theorem keepIdx_findIdx_ge (full : List Warning) :
    ∀ (rem : List Warning) (i : Nat), ∀ w ∈ keepIdx full i rem,
      i ≤ full.findIdx (fun v => v.message == w.message) := by
  intro rem
  induction rem with
  | nil =>
    intro i w hw
    rw [keepIdx] at hw
    cases hw
  | cons w0 ws ih =>
    intro i w hw
    rw [keepIdx] at hw
    rcases List.mem_append.mp hw with h1 | h2
    · by_cases hc : full.findIdx (fun v => v.message == w0.message) = i
      · rw [if_pos hc, List.mem_singleton] at h1
        subst h1
        exact le_of_eq hc.symm
      · rw [if_neg hc] at h1
        cases h1
    · have := ih (i + 1) w h2
      omega

theorem keepIdx_nodup :
    ∀ (rem pre : List Warning),
      ((keepIdx (pre ++ rem) pre.length rem).map (fun w => w.message)).Nodup := by
  intro rem
  induction rem with
  | nil => intro pre; rw [keepIdx]; exact List.nodup_nil
  | cons w0 ws ih =>
    intro pre
    rw [keepIdx]
    have hre : (pre ++ [w0]) ++ ws = pre ++ w0 :: ws := by simp
    have hlen : (pre ++ [w0]).length = pre.length + 1 := by simp
    have htail := ih (pre ++ [w0])
    rw [hre, hlen] at htail
    by_cases hc : ((pre ++ w0 :: ws).findIdx (fun v => v.message == w0.message)) = pre.length
    · rw [if_pos hc]
      simp only [List.singleton_append, List.map_cons]
      rw [List.nodup_cons]
      refine ⟨?_, htail⟩
      intro hmem
      obtain ⟨w, hwk, hmsg⟩ := List.mem_map.mp hmem
      have hge := keepIdx_findIdx_ge (pre ++ w0 :: ws) ws (pre.length + 1) w hwk
      simp only [hmsg] at hge
      omega
    · rw [if_neg hc]
      simpa using htail

theorem keepIdx_complete :
    ∀ (rem pre : List Warning) (j : Nat) (x : Warning),
      rem.get? j = some x →
      (pre ++ rem).findIdx (fun v => v.message == x.message) = pre.length + j →
      x ∈ keepIdx (pre ++ rem) pre.length rem := by
  intro rem
  induction rem with
  | nil => intro pre j x hj; cases hj
  | cons w0 ws ih =>
    intro pre j x hj hidx
    rw [keepIdx]
    cases j with
    | zero =>
      obtain rfl : w0 = x := by injection hj
      apply List.mem_append.mpr
      left
      rw [if_pos (by simpa using hidx)]
      exact List.mem_singleton_self _
    | succ j' =>
      apply List.mem_append.mpr
      right
      have hre : (pre ++ [w0]) ++ ws = pre ++ w0 :: ws := by simp
      have hlen : (pre ++ [w0]).length = pre.length + 1 := by simp
      have hidx' : ((pre ++ [w0]) ++ ws).findIdx (fun v => v.message == x.message)
          = (pre ++ [w0]).length + j' := by
        rw [hre, hlen, hidx]
        omega
      have := ih (pre ++ [w0]) j' x hj hidx'
      rw [hre, hlen] at this
      exact this

theorem first_match_data {p : Warning → Bool} :
    ∀ (l : List Warning), (∃ y ∈ l, p y = true) →
      ∃ j x, l.get? j = some x ∧ l.findIdx p = j ∧ p x = true := by
  intro l
  induction l with
  | nil => intro ⟨y, hy, _⟩; cases hy
  | cons a t ih =>
    intro hex
    by_cases hpa : p a = true
    · exact ⟨0, a, rfl, by rw [List.findIdx_cons, hpa]; rfl, hpa⟩
    · have hpa' : p a = false := by simpa using hpa
      obtain ⟨y, hy, hpy⟩ := hex
      have hyt : y ∈ t := by
        rcases List.mem_cons.mp hy with rfl | h
        · exact absurd hpy (by rw [hpa']; exact Bool.false_ne_true)
        · exact h
      obtain ⟨j, x, hj, hidx, hpx⟩ := ih ⟨y, hyt, hpy⟩
      exact ⟨j + 1, x, hj, by rw [List.findIdx_cons, hpa']; simpa using hidx, hpx⟩

/-- C8: for every node map, the analyzer's output is a subsequence of the
    raw warning list (order preserved), contains each produced message
    exactly once (no duplicate messages, and every raw message is
    represented), and each retained warning is the first raw warning with
    its message. -/
theorem c8_warning_dedup (m : List (String × Option RawNode)) :
    (analyzePerformanceWarnings m).Sublist (rawWarnings m) ∧
    ((analyzePerformanceWarnings m).map (fun w => w.message)).Nodup ∧
    (∀ w ∈ rawWarnings m, ∃ w' ∈ analyzePerformanceWarnings m,
      w'.message = w.message) ∧
    (∀ w ∈ analyzePerformanceWarnings m,
      (rawWarnings m).find? (fun v => v.message == w.message) = some w) := by
  refine ⟨keepIdx_sublist _ _ _, ?_, ?_, ?_⟩
  · simpa using keepIdx_nodup (rawWarnings m) []
  · intro w hw
    obtain ⟨j, x, hj, hidx, hpx⟩ :=
      @first_match_data (fun v => v.message == w.message) (rawWarnings m)
        ⟨w, hw, beq_self_eq_true _⟩
    have hxmsg : x.message = w.message := beq_iff_eq.mp hpx
    have hmem : x ∈ keepIdx ([] ++ rawWarnings m) (List.length ([] : List Warning))
        (rawWarnings m) := by
      apply keepIdx_complete (rawWarnings m) [] j x hj
      simp only [List.nil_append, List.length_nil, Nat.zero_add, hxmsg]
      exact hidx
    exact ⟨x, by simpa using hmem, hxmsg⟩
  · intro w hw
    have := keepIdx_find? (rawWarnings m) [] w (by simpa using hw)
    simpa using this

set_option maxRecDepth 8192 in
/-- Witness for C8: two distinct nodes both triggering the Nested Loop rule
    produce byte-identical messages; the analyzer keeps the first. -/
theorem c8_witness :
    (rawWarnings
        [("a", some ⟨DetailsVal.arr ["Nested Loop x"], some 0⟩),
         ("b", some ⟨DetailsVal.arr ["Nested Loop y"], some 0⟩)]).find?
      (fun v => v.message ==
        (⟨WType.warning, nestedLoopMsg, WSev.high, "a"⟩ : Warning).message)
      = some ⟨WType.warning, nestedLoopMsg, WSev.high, "a"⟩ := by
  have h := (c8_warning_dedup
    [("a", some ⟨DetailsVal.arr ["Nested Loop x"], some 0⟩),
     ("b", some ⟨DetailsVal.arr ["Nested Loop y"], some 0⟩)]).2.2.2
  exact h ⟨WType.warning, nestedLoopMsg, WSev.high, "a"⟩ (by decide)

/-! ### C10: analyzer output well-formedness -/

theorem contentOf_eq_some (n : Option RawNode) (c : String) (h : contentOf n = some c) :
    ∃ rest ex, n = some ⟨DetailsVal.arr (c :: rest), ex⟩ := by
  rcases n with _ | nd
  · simp [contentOf] at h
  · rcases hdv : nd.detailsVal with _ | s | l
    · simp [contentOf, hdv] at h
    · simp [contentOf, hdv] at h
    · rcases l with _ | ⟨c0, rest⟩
      · simp [contentOf, hdv] at h
      · have hc : c0 = c := by simpa [contentOf, hdv] using h
        subst hc
        refine ⟨rest, nd.exclusiveCost, ?_⟩
        have hnd : nd = ⟨DetailsVal.arr (c0 :: rest), nd.exclusiveCost⟩ := by
          rw [← hdv]
        rw [← hnd]

theorem nodeWarnings_shape (k : String) (n : Option RawNode) :
    ∀ w ∈ nodeWarnings k n,
      w.nodeId = k ∧
      (w.type = WType.warning ∨ w.type = WType.info) ∧
      (w.severity = WSev.high ∨ w.severity = WSev.medium) ∧
      (w.type = WType.info → w.message = bcastMsg) := by
  intro w hw
  rw [nodeWarnings.eq_def] at hw
  rcases hcn : contentOf n with _ | content
  · rw [hcn] at hw
    cases hw
  · rw [hcn] at hw
    simp only at hw
    rcases List.mem_append.mp hw with h3 | h4
    · rcases List.mem_append.mp h3 with h2 | h3'
      · rcases List.mem_append.mp h2 with h1 | h2'
        · -- Nested Loop rule
          split at h1
          · rw [List.mem_singleton] at h1
            subst h1
            exact ⟨rfl, Or.inl rfl, Or.inl rfl, fun h => nomatch h⟩
          · cases h1
        · -- Seq Scan rule
          split at h2'
          · split at h2'
            · split at h2'
              · rw [List.mem_singleton] at h2'
                subst h2'
                exact ⟨rfl, Or.inl rfl, Or.inr rfl, fun h => nomatch h⟩
              · cases h2'
            · cases h2'
          · cases h2'
      · -- DS_BCAST rule
        split at h3'
        · rw [List.mem_singleton] at h3'
          subst h3'
          exact ⟨rfl, Or.inr rfl, Or.inr rfl, fun _ => rfl⟩
        · cases h3'
    · -- Hash rule
      split at h4
      · rw [List.mem_singleton] at h4
        subst h4
        exact ⟨rfl, Or.inl rfl, Or.inr rfl, fun h => nomatch h⟩
      · cases h4

theorem nodeWarnings_skip (k : String) (n : Option RawNode)
    (h : contentOf n = none) : nodeWarnings k n = [] := by
  rw [nodeWarnings.eq_def, h]

/-- C10: every warning the analyzer returns carries the id of a map entry
    whose node is non-null with a nonempty array of detail lines, its type
    is warning or info, its severity is high or medium, and type info occurs
    only with the DS_BCAST broadcast message; a node with missing,
    non-array, or empty details contributes no warning at all. -/
theorem c10_analyzer_wellformed (m : List (String × Option RawNode)) :
    (∀ w ∈ analyzePerformanceWarnings m,
      (∃ e ∈ m, e.1 = w.nodeId ∧
        ∃ c rest ex, e.2 = some (⟨DetailsVal.arr (c :: rest), ex⟩ : RawNode)) ∧
      (w.type = WType.warning ∨ w.type = WType.info) ∧
      (w.severity = WSev.high ∨ w.severity = WSev.medium) ∧
      (w.type = WType.info → w.message = bcastMsg)) ∧
    (∀ (k : String) (n : Option RawNode), contentOf n = none →
      nodeWarnings k n = []) := by
  constructor
  · intro w hw
    have hraw : w ∈ rawWarnings m :=
      (keepIdx_sublist (rawWarnings m) (rawWarnings m) 0).subset hw
    rw [rawWarnings] at hraw
    obtain ⟨l', hl', hwl⟩ := List.mem_flatten.mp hraw
    obtain ⟨e, he, rfl⟩ := List.mem_map.mp hl'
    have hshape := nodeWarnings_shape e.1 e.2 w hwl
    refine ⟨⟨e, he, hshape.1.symm, ?_⟩, hshape.2⟩
    rcases hcn : contentOf e.2 with _ | content
    · rw [nodeWarnings_skip e.1 e.2 hcn] at hwl
      cases hwl
    · obtain ⟨rest, ex, hne⟩ := contentOf_eq_some e.2 content hcn
      exact ⟨content, rest, ex, hne⟩
  · exact nodeWarnings_skip

set_option maxRecDepth 8192 in
/-- Witness for C10 on a two-entry map: the info (DS_BCAST) warning points
    at the valid entry `a`, and the null entry `bad` contributes nothing. -/
theorem c10_witness :
    (∃ e ∈ [("a", some (⟨DetailsVal.arr ["Nested Loop DS_BCAST x"], some 0⟩ : RawNode)),
            ("bad", (none : Option RawNode))],
      e.1 = (⟨WType.info, bcastMsg, WSev.medium, "a"⟩ : Warning).nodeId ∧
      ∃ c rest ex, e.2 = some (⟨DetailsVal.arr (c :: rest), ex⟩ : RawNode)) ∧
    nodeWarnings ("bad") (none : Option RawNode) = [] := by
  have h := c10_analyzer_wellformed
    [("a", some (⟨DetailsVal.arr ["Nested Loop DS_BCAST x"], some 0⟩ : RawNode)),
     ("bad", (none : Option RawNode))]
  exact ⟨(h.1 ⟨WType.info, bcastMsg, WSev.medium, "a"⟩ (by decide)).1,
         h.2 ("bad") none rfl⟩

/-! ### C4: tree construction by indentation

The reference (spec-level) description: each `->` line becomes a child of
the most recent preceding node-creating line with strictly smaller
indentation. `recs` is the list of (starts-with-arrow, indentation) pairs
of the (already filtered) plan lines. -/

def lineRec (line : String) : Bool × Nat :=
  (startsArrow (jsTrim line.data), indentOf line.data)

def arrowB (recs : List (Bool × Nat)) (k : Nat) : Bool :=
  ((recs.get? k).getD (false, 0)).1

def indentAt (recs : List (Bool × Nat)) (k : Nat) : Nat :=
  ((recs.get? k).getD (false, 0)).2

/-- A line creates a node iff it is an arrow line or the first line. -/
def creatingB (recs : List (Bool × Nat)) (k : Nat) : Bool :=
  arrowB recs k || k == 0

def countC (recs : List (Bool × Nat)) (n : Nat) : Nat :=
  ((List.range n).filter (creatingB recs)).length

def idOf (recs : List (Bool × Nat)) (k : Nat) : String := mkId (countC recs k)

/-- Position k's node is still on the stack after the first n lines: it
    creates a node and no later arrow line (within the prefix) has
    indentation ≤ its own. -/
def visB (recs : List (Bool × Nat)) (n k : Nat) : Bool :=
  creatingB recs k && decide (k < n) &&
    decide (∀ m, m < n → k < m → arrowB recs m = true →
      indentAt recs k < indentAt recs m)

def visList (recs : List (Bool × Nat)) (n : Nat) : List Nat :=
  ((List.range n).filter (fun k => visB recs n k)).reverse

def stackRef (recs : List (Bool × Nat)) (n : Nat) : List (String × Nat) :=
  (visList recs n).map (fun k => (idOf recs k, indentAt recs k))

/-- The parent of arrow line k: the most recent node-creating line with
    strictly smaller indentation. -/
def parentIdx (recs : List (Bool × Nat)) (k : Nat) : Option Nat :=
  (List.range k).reverse.find?
    (fun j => creatingB recs j && decide (indentAt recs j < indentAt recs k))

def refEdges (recs : List (Bool × Nat)) (n : Nat) : List String :=
  (List.range n).filterMap (fun k =>
    if arrowB recs k then
      (parentIdx recs k).map (fun j => idOf recs j ++ " --> " ++ idOf recs k)
    else none)

def childrenRef (recs : List (Bool × Nat)) (n j : Nat) : List String :=
  (List.range n).filterMap (fun k =>
    if arrowB recs k && (parentIdx recs k == some j) then some (idOf recs k) else none)

def ncRef (recs : List (Bool × Nat)) (n : Nat) : List (String × List String) :=
  ((List.range n).filter (creatingB recs)).map
    (fun k => (idOf recs k, childrenRef recs n k))

/-- The literal reading of the claim's region-based characterization: a
    node's children are the `->` lines with strictly greater indentation up
    to (not including) the next line (of any kind) with indentation ≤ the
    node's. -/
def regionEnd (recs : List (Bool × Nat)) (k n : Nat) : Nat :=
  (((List.range n).find? (fun m =>
    decide (k < m) && decide (indentAt recs m ≤ indentAt recs k))).getD n)

def claimChildren (recs : List (Bool × Nat)) (n k : Nat) : List String :=
  (List.range n).filterMap (fun j =>
    if decide (k < j) && decide (j < regionEnd recs k n) && arrowB recs j
        && decide (indentAt recs k < indentAt recs j)
    then some (idOf recs j) else none)

/-! #### Identifier injectivity -/

theorem natOfDigits_append (l : List Char) (c : Char) :
    natOfDigits (l ++ [c]) = 10 * natOfDigits l + digitVal c := by
  rw [natOfDigits, List.foldl_append]
  rfl

theorem digitVal_digitChar (n : Nat) (h : n < 10) : digitVal (digitChar n) = n := by
  interval_cases n <;> decide

theorem natOfDigits_natDigitsF :
    ∀ (f n : Nat), n < f → natOfDigits (natDigitsF f n) = n := by
  intro f
  induction f with
  | zero => intro n h; omega
  | succ f ih =>
    intro n h
    rw [natDigitsF]
    by_cases h10 : n < 10
    · rw [if_pos h10]
      show natOfDigits ([] ++ [digitChar n]) = n
      rw [natOfDigits_append, digitVal_digitChar n h10]
      have h0 : natOfDigits ([] : List Char) = 0 := rfl
      omega
    · rw [if_neg h10]
      rw [natOfDigits_append, ih (n / 10) (by omega), digitVal_digitChar _ (by omega)]
      omega

theorem natStr_inj {m n : Nat} (h : natStr m = natStr n) : m = n := by
  have hd : natDigitsF (m + 1) m = natDigitsF (n + 1) n := congrArg String.data h
  have := natOfDigits_natDigitsF (m + 1) m (by omega)
  rw [hd, natOfDigits_natDigitsF (n + 1) n (by omega)] at this
  omega

theorem mkId_inj {m n : Nat} (h : mkId m = mkId n) : m = n := by
  apply natStr_inj
  have hd : ("node").data ++ (natStr m).data = ("node").data ++ (natStr n).data := by
    have : ("node" ++ natStr m).data = ("node" ++ natStr n).data := congrArg String.data h
    simpa [String.data_append] using this
  exact congrArg String.mk (List.append_cancel_left hd)

theorem countC_succ (recs : List (Bool × Nat)) (n : Nat) :
    countC recs (n + 1) = countC recs n + (if creatingB recs n then 1 else 0) := by
  rw [countC, countC, List.range_succ, List.filter_append]
  by_cases hc : creatingB recs n = true
  · simp [hc]
  · simp [hc]

theorem countC_le_succ (recs : List (Bool × Nat)) (n : Nat) :
    countC recs n ≤ countC recs (n + 1) := by
  rw [countC_succ]
  split <;> omega

theorem countC_mono (recs : List (Bool × Nat)) {a b : Nat} (h : a ≤ b) :
    countC recs a ≤ countC recs b := by
  induction h with
  | refl => exact le_rfl
  | step _ ih => exact le_trans ih (countC_le_succ recs _)

theorem countC_lt (recs : List (Bool × Nat)) {k k' : Nat}
    (hlt : k < k') (hc : creatingB recs k = true) :
    countC recs k < countC recs k' := by
  have h1 : countC recs (k + 1) = countC recs k + 1 := by
    rw [countC_succ, if_pos hc]
  have h2 : countC recs (k + 1) ≤ countC recs k' := countC_mono recs (by omega)
  omega

theorem idOf_inj (recs : List (Bool × Nat)) {k k' : Nat}
    (hk : creatingB recs k = true) (hk' : creatingB recs k' = true)
    (h : idOf recs k = idOf recs k') : k = k' := by
  by_contra hne
  rcases Nat.lt_or_ge k k' with hlt | hge
  · exact absurd (mkId_inj h) (by have := countC_lt recs hlt hk; omega)
  · have hlt : k' < k := by omega
    exact absurd (mkId_inj h) (by have := countC_lt recs hlt hk'; omega)

/-! #### find?/filter machinery -/

theorem find?_eq_head?_filter {α : Type} (p : α → Bool) :
    ∀ (l : List α), l.find? p = (l.filter p).head? := by
  intro l
  induction l with
  | nil => rfl
  | cons a t ih =>
    by_cases hpa : p a = true
    · rw [List.find?_cons_of_pos _ hpa, List.filter_cons_of_pos hpa]
      rfl
    · have hpa' : p a = false := by simpa using hpa
      rw [List.find?_cons_of_neg _ (by rw [hpa']; exact Bool.false_ne_true),
        List.filter_cons_of_neg (by rw [hpa']; exact Bool.false_ne_true)]
      exact ih

theorem find?_reverse_eq (α : Type) (p : α → Bool) (l : List α) :
    l.reverse.find? p = (l.filter p).getLast? := by
  rw [find?_eq_head?_filter, List.filter_reverse, List.head?_reverse]

theorem find?_split {α : Type} {p : α → Bool} :
    ∀ {l : List α} {a : α}, l.find? p = some a →
      ∃ l₁ l₂, l = l₁ ++ a :: l₂ ∧ ∀ x ∈ l₁, p x = false := by
  intro l
  induction l with
  | nil => intro a h; cases h
  | cons b t ih =>
    intro a h
    by_cases hpb : p b = true
    · rw [List.find?_cons_of_pos _ hpb] at h
      obtain rfl : b = a := by injection h
      exact ⟨[], t, rfl, by intro x hx; cases hx⟩
    · have hpb' : p b = false := by simpa using hpb
      rw [List.find?_cons_of_neg _ (by rw [hpb']; exact Bool.false_ne_true)] at h
      obtain ⟨l₁, l₂, rfl, hall⟩ := ih h
      refine ⟨b :: l₁, l₂, rfl, ?_⟩
      intro x hx
      rcases List.mem_cons.mp hx with rfl | hxt
      · exact hpb'
      · exact hall x hxt

/-! #### parentIdx characterization -/

theorem parentIdx_spec (recs : List (Bool × Nat)) (k j : Nat)
    (h : parentIdx recs k = some j) :
    j < k ∧ creatingB recs j = true ∧ indentAt recs j < indentAt recs k ∧
    ∀ m, j < m → m < k →
      ¬(creatingB recs m = true ∧ indentAt recs m < indentAt recs k) := by
  have hmem : j ∈ (List.range k).reverse := List.mem_of_find?_eq_some h
  have hjk : j < k := by
    simpa using hmem
  have hpj := List.find?_some h
  have hcj : creatingB recs j = true := ((Bool.and_eq_true _ _).mp hpj).1
  have hij : indentAt recs j < indentAt recs k := by
    have := ((Bool.and_eq_true _ _).mp hpj).2
    simpa using this
  refine ⟨hjk, hcj, hij, ?_⟩
  intro m hjm hmk ⟨hcm, him⟩
  obtain ⟨l₁, l₂, hsplit, hfail⟩ := find?_split h
  have hml₁ : m ∈ l₁ := by
    have hmmem : m ∈ (List.range k).reverse := by simpa using hmk
    rw [hsplit] at hmmem
    rcases List.mem_append.mp hmmem with h1 | h2
    · exact h1
    · rcases List.mem_cons.mp h2 with rfl | h3
      · omega
      · -- elements after j in the strictly-descending reverse of range are < j
        have hpw : ((List.range k).reverse).Pairwise (fun a b => b < a) := by
          have := List.pairwise_lt_range k
          simpa [List.pairwise_reverse] using this
        rw [hsplit] at hpw
        have hsub : (j :: l₂).Pairwise (fun a b => b < a) :=
          hpw.sublist ((List.sublist_append_right l₁ _))
        have : m < j := (List.pairwise_cons.mp hsub).1 m h3
        omega
  have := hfail m hml₁
  rw [hcm] at this
  simp only [Bool.true_and] at this
  simp [him] at this

theorem parentIdx_none_spec (recs : List (Bool × Nat)) (k : Nat)
    (h : parentIdx recs k = none) :
    ∀ m, m < k →
      ¬(creatingB recs m = true ∧ indentAt recs m < indentAt recs k) := by
  intro m hmk ⟨hcm, him⟩
  have := List.find?_eq_none.mp h m (by simpa using hmk)
  rw [hcm] at this
  simp [him] at this

theorem parentIdx_getLast (recs : List (Bool × Nat)) (k : Nat) :
    parentIdx recs k
      = ((List.range k).filter
          (fun j => creatingB recs j && decide (indentAt recs j < indentAt recs k))).getLast? := by
  rw [parentIdx, find?_reverse_eq]

/-! #### Visibility and the stack -/

theorem visB_iff (recs : List (Bool × Nat)) (n k : Nat) :
    visB recs n k = true ↔
      creatingB recs k = true ∧ k < n ∧
      ∀ m, m < n → k < m → arrowB recs m = true →
        indentAt recs k < indentAt recs m := by
  rw [visB]
  simp [Bool.and_eq_true, decide_eq_true_eq, and_assoc]

theorem arrowB_creatingB {recs : List (Bool × Nat)} {k : Nat}
    (h : arrowB recs k = true) : creatingB recs k = true := by
  rw [creatingB, h]
  rfl

theorem creatingB_arrowB {recs : List (Bool × Nat)} {k : Nat}
    (h : creatingB recs k = true) (hk : k ≠ 0) : arrowB recs k = true := by
  rw [creatingB] at h
  rcases (Bool.or_eq_true _ _).mp h with h1 | h1
  · exact h1
  · exact absurd (by simpa using h1) hk

theorem mem_visList (recs : List (Bool × Nat)) (n k : Nat) :
    k ∈ visList recs n ↔ visB recs n k = true := by
  rw [visList]
  simp only [List.mem_reverse, List.mem_filter, List.mem_range]
  constructor
  · exact fun h => h.2
  · intro h
    exact ⟨((visB_iff recs n k).mp h).2.1, h⟩

theorem vis_indent_lt (recs : List (Bool × Nat)) (n : Nat) {k k' : Nat}
    (hk : visB recs n k = true) (hk' : visB recs n k' = true) (hlt : k < k') :
    indentAt recs k < indentAt recs k' := by
  obtain ⟨_, _, hclause⟩ := (visB_iff recs n k).mp hk
  obtain ⟨hc', hk'n, _⟩ := (visB_iff recs n k').mp hk'
  exact hclause k' hk'n hlt (creatingB_arrowB hc' (by omega))

theorem visList_pairwise (recs : List (Bool × Nat)) (n : Nat) :
    (visList recs n).Pairwise (fun a b => b < a) := by
  rw [visList, List.pairwise_reverse]
  exact (List.pairwise_lt_range n).filter _

theorem stackRef_sorted (recs : List (Bool × Nat)) (n : Nat) :
    (stackRef recs n).Pairwise (fun a b => b.2 < a.2) := by
  rw [stackRef]
  have h1 : (visList recs n).Pairwise
      (fun a b => indentAt recs b < indentAt recs a) := by
    apply (visList_pairwise recs n).imp_of_mem
    intro a b ha hb hab
    exact vis_indent_lt recs n ((mem_visList recs n b).mp hb)
      ((mem_visList recs n a).mp ha) hab
  exact h1.map _ (fun a b h => h)

theorem dropWhile_sorted (d : Nat) :
    ∀ (l : List (String × Nat)), l.Pairwise (fun a b => b.2 < a.2) →
      l.dropWhile (fun e => decide (d ≤ e.2)) = l.filter (fun e => decide (e.2 < d)) := by
  intro l
  induction l with
  | nil => intro _; rfl
  | cons x t ih =>
    intro hpw
    rw [List.pairwise_cons] at hpw
    by_cases hx : d ≤ x.2
    · rw [List.dropWhile_cons_of_pos (by simpa using hx),
        List.filter_cons_of_neg (by simp; omega)]
      exact ih hpw.2
    · rw [List.dropWhile_cons_of_neg (by simpa using hx),
        List.filter_cons_of_pos (by simp; omega)]
      have : t.filter (fun e => decide (e.2 < d)) = t := by
        apply List.filter_eq_self.mpr
        intro y hy
        have := hpw.1 y hy
        simp
        omega
      rw [this]

theorem popGE_stackRef (recs : List (Bool × Nat)) (n d : Nat) :
    popGE d (stackRef recs n)
      = (((List.range n).filter
            (fun k => visB recs n k && decide (indentAt recs k < d))).reverse).map
          (fun k => (idOf recs k, indentAt recs k)) := by
  rw [popGE, dropWhile_sorted d _ (stackRef_sorted recs n), stackRef, visList,
    List.filter_map, List.filter_reverse, List.filter_filter]
  refine congrArg _ (congrArg _ (List.filter_congr ?_))
  intro a _
  simp [Function.comp, Bool.and_comm]

theorem find?_reverse_range_max {p : Nat → Bool} {k j : Nat}
    (h : (List.range k).reverse.find? p = some j) :
    j < k ∧ p j = true ∧ ∀ m, j < m → m < k → p m = false := by
  have hmem : j ∈ (List.range k).reverse := List.mem_of_find?_eq_some h
  have hjk : j < k := by simpa using hmem
  refine ⟨hjk, List.find?_some h, ?_⟩
  intro m hjm hmk
  obtain ⟨l₁, l₂, hsplit, hfail⟩ := find?_split h
  apply hfail
  have hmmem : m ∈ (List.range k).reverse := by simpa using hmk
  rw [hsplit] at hmmem
  rcases List.mem_append.mp hmmem with h1 | h2
  · exact h1
  · rcases List.mem_cons.mp h2 with rfl | h3
    · omega
    · have hpw : ((List.range k).reverse).Pairwise (fun a b => b < a) := by
        have := List.pairwise_lt_range k
        simpa [List.pairwise_reverse] using this
      rw [hsplit] at hpw
      have hsub : (j :: l₂).Pairwise (fun a b => b < a) :=
        hpw.sublist (List.sublist_append_right l₁ _)
      have : m < j := (List.pairwise_cons.mp hsub).1 m h3
      omega

/-- After at least one line, the reference stack is nonempty: the most
    recent node-creating position is still visible. -/
theorem visList_ne_nil (recs : List (Bool × Nat)) (n : Nat) (hn : 0 < n) :
    visList recs n ≠ [] := by
  have hfind : ((List.range n).reverse.find? (creatingB recs)).isSome := by
    rw [List.find?_isSome]
    refine ⟨0, by simpa using hn, ?_⟩
    rw [creatingB]
    simp
  obtain ⟨j₀, hj₀⟩ := Option.isSome_iff_exists.mp hfind
  obtain ⟨hj₀n, hcj₀, hmax⟩ := find?_reverse_range_max hj₀
  have hvis : visB recs n j₀ = true := by
    rw [visB_iff]
    refine ⟨hcj₀, hj₀n, ?_⟩
    intro m hm hj₀m ham
    exact absurd (arrowB_creatingB ham) (by rw [hmax m hj₀m hm]; exact Bool.false_ne_true)
  intro hnil
  have := (mem_visList recs n j₀).mpr hvis
  rw [hnil] at this
  cases this

theorem filterV_getLast (recs : List (Bool × Nat)) (n : Nat) :
    ((List.range n).filter
        (fun k => visB recs n k && decide (indentAt recs k < indentAt recs n))).getLast?
      = parentIdx recs n := by
  rw [parentIdx_getLast]
  rcases hp : ((List.range n).filter
      (fun j => creatingB recs j && decide (indentAt recs j < indentAt recs n))).getLast?
    with _ | j
  · have hPnil : (List.range n).filter
        (fun j => creatingB recs j && decide (indentAt recs j < indentAt recs n)) = [] := by
      rwa [List.getLast?_eq_none_iff] at hp
    have hfail := List.filter_eq_nil_iff.mp hPnil
    have hVnil : (List.range n).filter
        (fun k => visB recs n k && decide (indentAt recs k < indentAt recs n)) = [] := by
      apply List.filter_eq_nil_iff.mpr
      intro k hk hv
      rcases (Bool.and_eq_true _ _).mp hv with ⟨hv1, hv2⟩
      have hc : creatingB recs k = true := ((visB_iff recs n k).mp hv1).1
      exact hfail k hk (by rw [hc, hv2]; rfl)
    rw [hVnil]
    rfl
  · have hpar : parentIdx recs n = some j := by rw [parentIdx_getLast, hp]
    obtain ⟨hjn, hcj, hij, hmax⟩ := parentIdx_spec recs n j hpar
    have hvisj : visB recs n j = true := by
      rw [visB_iff]
      refine ⟨hcj, hjn, ?_⟩
      intro m hm hjm ham
      by_contra h'
      exact hmax m hjm hm ⟨arrowB_creatingB ham, by omega⟩
    have hrevhead : (((List.range n).filter
        (fun j => creatingB recs j && decide (indentAt recs j < indentAt recs n))).reverse).head?
        = some j := by
      rw [List.head?_reverse, hp]
    rcases hrev : ((List.range n).filter
        (fun j => creatingB recs j && decide (indentAt recs j < indentAt recs n))).reverse
      with _ | ⟨j', t⟩
    · rw [hrev] at hrevhead; cases hrevhead
    · rw [hrev] at hrevhead
      obtain rfl : j' = j := by injection hrevhead
      have hPdecomp : (List.range n).filter
          (fun j => creatingB recs j && decide (indentAt recs j < indentAt recs n))
          = t.reverse ++ [j'] := by
        have h2 := congrArg List.reverse hrev
        rw [List.reverse_reverse] at h2
        rw [h2, List.reverse_cons]
      have hVP : (List.range n).filter
          (fun k => visB recs n k && decide (indentAt recs k < indentAt recs n))
          = ((List.range n).filter
              (fun j => creatingB recs j && decide (indentAt recs j < indentAt recs n))).filter
            (fun k => visB recs n k && decide (indentAt recs k < indentAt recs n)) := by
        rw [List.filter_filter]
        apply List.filter_congr
        intro a _
        rcases hva : (visB recs n a && decide (indentAt recs a < indentAt recs n)) with _ | _
        · simp
        · rcases (Bool.and_eq_true _ _).mp hva with ⟨hv1, hv2⟩
          simp [((visB_iff recs n a).mp hv1).1, hv2]
      rw [hVP, hPdecomp, List.filter_append]
      have hfj : List.filter
          (fun k => visB recs n k && decide (indentAt recs k < indentAt recs n)) [j']
          = [j'] := by
        simp [hvisj, hij]
      rw [hfj, List.getLast?_concat]

theorem visB_last (recs : List (Bool × Nat)) (n : Nat) :
    visB recs (n + 1) n = creatingB recs n := by
  rcases hc : creatingB recs n with _ | _
  · rw [visB, hc]
    rfl
  · rw [visB, hc]
    simp only [Bool.true_and, decide_eq_true_eq]
    have h1 : (decide (n < n + 1) : Bool) = true := by simp
    rw [h1]
    simp only [Bool.true_and, decide_eq_true_eq]
    intro m hm hnm
    omega

theorem visB_succ_of_cont (recs : List (Bool × Nat)) (n k : Nat)
    (ha : arrowB recs n = false) (hk : k < n) :
    visB recs (n + 1) k = visB recs n k := by
  rw [Bool.eq_iff_iff, visB_iff, visB_iff]
  constructor
  · rintro ⟨h1, _, h3⟩
    exact ⟨h1, hk, fun m hm hkm ham => h3 m (by omega) hkm ham⟩
  · rintro ⟨h1, _, h3⟩
    refine ⟨h1, by omega, ?_⟩
    intro m hm hkm ham
    rcases Nat.lt_or_ge m n with hmn | hmn
    · exact h3 m hmn hkm ham
    · have : m = n := by omega
      subst this
      rw [ha] at ham
      cases ham

theorem visB_succ_of_arrow (recs : List (Bool × Nat)) (n k : Nat)
    (ha : arrowB recs n = true) (hk : k < n) :
    visB recs (n + 1) k
      = (visB recs n k && decide (indentAt recs k < indentAt recs n)) := by
  rw [Bool.eq_iff_iff, Bool.and_eq_true, visB_iff, visB_iff]
  constructor
  · rintro ⟨h1, _, h3⟩
    refine ⟨⟨h1, hk, fun m hm hkm ham => h3 m (by omega) hkm ham⟩, ?_⟩
    simpa using h3 n (by omega) hk ha
  · rintro ⟨⟨h1, _, h3⟩, h4⟩
    refine ⟨h1, by omega, ?_⟩
    intro m hm hkm ham
    rcases Nat.lt_or_ge m n with hmn | hmn
    · exact h3 m hmn hkm ham
    · have : m = n := by omega
      subst this
      simpa using h4

theorem visList_succ_arrow (recs : List (Bool × Nat)) (n : Nat)
    (ha : arrowB recs n = true) :
    visList recs (n + 1)
      = n :: ((List.range n).filter
          (fun k => visB recs n k && decide (indentAt recs k < indentAt recs n))).reverse := by
  rw [visList, List.range_succ, List.filter_append]
  have hn : List.filter (fun k => visB recs (n + 1) k) [n] = [n] := by
    simp [visB_last, arrowB_creatingB ha]
  rw [hn, List.reverse_append, List.reverse_cons, List.reverse_nil, List.nil_append,
    List.singleton_append]
  congr 2
  apply List.filter_congr
  intro k hk
  exact visB_succ_of_arrow recs n k ha (by simpa using hk)

theorem visList_succ_cont (recs : List (Bool × Nat)) (n : Nat)
    (ha : arrowB recs n = false) (hn : n ≠ 0) :
    visList recs (n + 1) = visList recs n := by
  rw [visList, visList, List.range_succ, List.filter_append]
  have h0 : List.filter (fun k => visB recs (n + 1) k) [n] = [] := by
    have : visB recs (n + 1) n = false := by
      rw [visB_last, creatingB, ha]
      simpa using hn
    simp [this]
  rw [h0, List.append_nil]
  congr 1
  apply List.filter_congr
  intro k hk
  exact visB_succ_of_cont recs n k ha (by simpa using hk)

theorem visList_one (recs : List (Bool × Nat)) : visList recs 1 = [0] := by
  rw [visList]
  have h0 : visB recs 1 0 = true := by
    rw [show (1 : Nat) = 0 + 1 from rfl, visB_last, creatingB]
    simp
  simp [List.range_succ, h0]

/-! #### Parser step reductions and children-map machinery -/

def updateC (m : List (String × List String)) (k : String)
    (g : List String → List String) : List (String × List String) :=
  match m with
  | [] => []
  | (k1, v) :: t => if k1 == k then (k1, g v) :: t else (k1, v) :: updateC t k g

theorem updateA_map_children_eq (k : String) (f : NodeInfo → NodeInfo)
    (hf : ∀ i, (f i).children = i.children) :
    ∀ (m : List (String × NodeInfo)),
      (updateA m k f).map (fun e => (e.1, e.2.children))
        = m.map (fun e => (e.1, e.2.children)) := by
  intro m
  induction m with
  | nil => rfl
  | cons h t ih =>
    obtain ⟨k1, v⟩ := h
    rw [updateA]
    by_cases hk : (k1 == k) = true
    · rw [if_pos hk]
      simp only [List.map_cons]
      rw [hf v]
    · rw [if_neg hk]
      simp only [List.map_cons]
      rw [ih]

theorem updateA_map_children_append (k cid : String) :
    ∀ (m : List (String × NodeInfo)),
      (updateA m k (fun i => { i with children := i.children ++ [cid] })).map
          (fun e => (e.1, e.2.children))
        = updateC (m.map (fun e => (e.1, e.2.children))) k (fun ch => ch ++ [cid]) := by
  intro m
  induction m with
  | nil => rfl
  | cons h t ih =>
    obtain ⟨k1, v⟩ := h
    rw [updateA, List.map_cons, updateC]
    by_cases hk : (k1 == k) = true
    · rw [if_pos hk, if_pos hk]
      simp only [List.map_cons]
    · rw [if_neg hk, if_neg hk]
      simp only [List.map_cons]
      rw [ih]

theorem updateC_map_of_inj (F : Nat → String) (G : Nat → List String)
    (g : List String → List String) (j : Nat) :
    ∀ (l : List Nat), l.Nodup → j ∈ l →
      (∀ a ∈ l, ∀ b ∈ l, F a = F b → a = b) →
      updateC (l.map (fun k => (F k, G k))) (F j) g
        = l.map (fun k => (F k, if k = j then g (G k) else G k)) := by
  intro l
  induction l with
  | nil => intro _ hj _; cases hj
  | cons a t ih =>
    intro hnd hj hinj
    rw [List.map_cons, List.map_cons, updateC]
    by_cases hk : (F a == F j) = true
    · have haj : a = j := hinj a (List.mem_cons_self a t) j hj (beq_iff_eq.mp hk)
      rw [if_pos hk]
      congr 1
      · rw [if_pos haj]
      · symm
        apply List.map_congr_left
        intro b hb
        have hbj : b ≠ j := by
          intro hc
          exact (List.nodup_cons.mp hnd).1 ((haj.trans hc.symm) ▸ hb)
        rw [if_neg hbj]
    · have hk' : (F a == F j) = false := by simpa using hk
      have haj : a ≠ j := by
        intro hc
        rw [hc] at hk'
        simp at hk'
      rw [if_neg (by rw [hk']; exact Bool.false_ne_true), if_neg haj]
      congr 1
      apply ih (List.nodup_cons.mp hnd).2
        (by rcases List.mem_cons.mp hj with h1 | h1
            · exact absurd h1.symm haj
            · exact h1)
        (fun x hx y hy => hinj x (List.mem_cons_of_mem _ hx) y (List.mem_cons_of_mem _ hy))

theorem childrenRef_succ (recs : List (Bool × Nat)) (n j : Nat) :
    childrenRef recs (n + 1) j
      = childrenRef recs n j
        ++ (if arrowB recs n && (parentIdx recs n == some j) then [idOf recs n] else []) := by
  rw [childrenRef, childrenRef, List.range_succ, List.filterMap_append]
  congr 1
  by_cases hc : (arrowB recs n && (parentIdx recs n == some j)) = true
  · rw [hc]
    rcases (Bool.and_eq_true _ _).mp hc with ⟨ha, hp⟩
    simp [ha, beq_iff_eq.mp hp]
  · have hc' : (arrowB recs n && (parentIdx recs n == some j)) = false := by simpa using hc
    rw [hc']
    simp only [Bool.false_eq_true, if_false]
    rw [List.filterMap_eq_nil_iff.mpr ?_]
    intro a ha
    rw [List.mem_singleton] at ha
    subst ha
    rcases Bool.and_eq_false_iff.mp hc' with h1 | h1 <;> simp [h1]

theorem childrenRef_last (recs : List (Bool × Nat)) (n : Nat) :
    childrenRef recs (n + 1) n = [] := by
  rw [childrenRef]
  apply List.filterMap_eq_nil_iff.mpr
  intro k hk
  by_cases hc : (arrowB recs k && (parentIdx recs k == some n)) = true
  · exfalso
    rcases (Bool.and_eq_true _ _).mp hc with ⟨_, hp⟩
    have hpk : parentIdx recs k = some n := beq_iff_eq.mp hp
    have := (parentIdx_spec recs k n hpk).1
    have : k < n + 1 := by simpa using hk
    omega
  · have hc' : (arrowB recs k && (parentIdx recs k == some n)) = false := by simpa using hc
    rw [hc']
    rfl

theorem refEdges_succ (recs : List (Bool × Nat)) (n : Nat) :
    refEdges recs (n + 1)
      = refEdges recs n
        ++ (if arrowB recs n then
              ((parentIdx recs n).map
                (fun j => idOf recs j ++ " --> " ++ idOf recs n)).toList
            else []) := by
  rw [refEdges, refEdges, List.range_succ, List.filterMap_append]
  congr 1
  by_cases hc : arrowB recs n = true
  · rw [hc]
    rcases hp : parentIdx recs n with _ | j <;> simp [hc, hp]
  · have hc' : arrowB recs n = false := by simpa using hc
    rw [hc']
    simp only [Bool.false_eq_true, if_false]
    rw [List.filterMap_eq_nil_iff.mpr ?_]
    intro a ha
    rw [List.mem_singleton] at ha
    subst ha
    simp [hc']

theorem ncRef_succ_create (recs : List (Bool × Nat)) (n : Nat)
    (hc : creatingB recs n = true) :
    ncRef recs (n + 1)
      = ((List.range n).filter (creatingB recs)).map
          (fun k => (idOf recs k, childrenRef recs (n + 1) k))
        ++ [(idOf recs n, childrenRef recs (n + 1) n)] := by
  rw [ncRef, List.range_succ, List.filter_append, List.map_append]
  congr 1
  simp [hc]

theorem ncRef_succ_noncreate (recs : List (Bool × Nat)) (n : Nat)
    (hc : creatingB recs n = false) :
    ncRef recs (n + 1)
      = ((List.range n).filter (creatingB recs)).map
          (fun k => (idOf recs k, childrenRef recs (n + 1) k)) := by
  rw [ncRef, List.range_succ, List.filter_append]
  have : List.filter (creatingB recs) [n] = [] := by simp [hc]
  rw [this, List.append_nil]

theorem processLine_arrow_nil (st : PState) (line : String)
    (harr : startsArrow (jsTrim line.data) = true)
    (hpop : popGE (indentOf line.data) st.nodeStack = []) :
    processLine st line
      = { idCounter := st.idCounter + 1,
          nodeStack := [(mkId st.idCounter, indentOf line.data)],
          nodeInfos := st.nodeInfos
            ++ [(mkId st.idCounter,
                 ⟨[(⟨stripArrowBug (jsTrim line.data)⟩ : String)],
                  extractTotalCost (jsTrim line.data), [], some 0⟩)],
          edges := st.edges } := by
  simp only [processLine, harr, if_true, hpop]

theorem processLine_arrow_cons (st : PState) (line : String)
    (pid : String) (w : Nat) (rest : List (String × Nat))
    (harr : startsArrow (jsTrim line.data) = true)
    (hpop : popGE (indentOf line.data) st.nodeStack = (pid, w) :: rest) :
    processLine st line
      = { idCounter := st.idCounter + 1,
          nodeStack := (mkId st.idCounter, indentOf line.data) :: (pid, w) :: rest,
          nodeInfos := updateA st.nodeInfos pid
              (fun i => { i with children := i.children ++ [mkId st.idCounter] })
            ++ [(mkId st.idCounter,
                 ⟨[(⟨stripArrowBug (jsTrim line.data)⟩ : String)],
                  extractTotalCost (jsTrim line.data), [], some 0⟩)],
          edges := st.edges ++ [pid ++ " --> " ++ mkId st.idCounter] } := by
  simp only [processLine, harr, if_true, hpop]

theorem processLine_root (st : PState) (line : String)
    (harr : startsArrow (jsTrim line.data) = false)
    (hstk : st.nodeStack = []) :
    processLine st line
      = { idCounter := st.idCounter + 1,
          nodeStack := [(mkId st.idCounter, indentOf line.data)],
          nodeInfos := st.nodeInfos
            ++ [(mkId st.idCounter,
                 ⟨[(⟨jsTrim line.data⟩ : String)],
                  extractTotalCost (jsTrim line.data), [], some 0⟩)],
          edges := st.edges } := by
  simp only [processLine, harr, Bool.false_eq_true, if_false, hstk]

theorem processLine_cont (st : PState) (line : String)
    (lastId : String) (w : Nat) (rest : List (String × Nat))
    (harr : startsArrow (jsTrim line.data) = false)
    (hstk : st.nodeStack = (lastId, w) :: rest) :
    processLine st line
      = { st with
          nodeInfos := updateA st.nodeInfos lastId (fun i =>
            let i1 := { i with details := i.details ++ [(⟨jsTrim line.data⟩ : String)] }
            if i1.totalCost == some 0
                && jsGtB (extractTotalCost (jsTrim line.data)) (some 0) then
              { i1 with totalCost := extractTotalCost (jsTrim line.data) }
            else i1) } := by
  simp only [processLine, harr, Bool.false_eq_true, if_false, hstk]

/-- The parser invariant: after the first n lines, the id counter, the
    stack, the edge list and the children structure of the node map are the
    reference values. -/
def Inv (recs : List (Bool × Nat)) (st : PState) (n : Nat) : Prop :=
  st.idCounter = countC recs n ∧
  st.nodeStack = stackRef recs n ∧
  st.edges = refEdges recs n ∧
  st.nodeInfos.map (fun e => (e.1, e.2.children)) = ncRef recs n

theorem parse_inv (lines : List String) :
    ∀ n, n ≤ lines.length →
      Inv (lines.map lineRec) ((lines.take n).foldl processLine initState) n := by
  intro n
  induction n with
  | zero =>
    intro _
    exact ⟨rfl, rfl, rfl, rfl⟩
  | succ n ih =>
    intro hn
    obtain ⟨hid, hstk, hedg, hnc⟩ := ih (by omega)
    have hlt : n < lines.length := by omega
    set recs := lines.map lineRec with hrecs
    obtain ⟨line, hline⟩ : ∃ l, lines[n]? = some l :=
      ⟨lines[n], List.getElem?_eq_getElem hlt⟩
    have htake : lines.take (n + 1) = lines.take n ++ [line] := by
      rw [List.take_succ, hline]
      rfl
    rw [htake, List.foldl_append, List.foldl_cons, List.foldl_nil]
    set st := (lines.take n).foldl processLine initState with hst
    have hrec_n : recs.get? n = some (lineRec line) := by
      rw [List.get?_eq_getElem?, hrecs, List.getElem?_map, hline]
      rfl
    have hA : arrowB recs n = startsArrow (jsTrim line.data) := by
      rw [arrowB, hrec_n]
      rfl
    have hI : indentAt recs n = indentOf line.data := by
      rw [indentAt, hrec_n]
      rfl
    have hidOfn : mkId st.idCounter = idOf recs n := by
      rw [hid]
      rfl
    by_cases harr : startsArrow (jsTrim line.data) = true
    · have hAn : arrowB recs n = true := by rw [hA]; exact harr
      have hCn : creatingB recs n = true := arrowB_creatingB hAn
      have hpop : popGE (indentOf line.data) st.nodeStack
          = (((List.range n).filter
              (fun k => visB recs n k && decide (indentAt recs k < indentAt recs n))).reverse).map
            (fun k => (idOf recs k, indentAt recs k)) := by
        rw [hstk, ← hI, popGE_stackRef]
      rcases hpar : parentIdx recs n with _ | j
      · have hFnil : ((List.range n).filter
            (fun k => visB recs n k && decide (indentAt recs k < indentAt recs n))) = [] := by
          have hfv := filterV_getLast recs n
          rw [hpar] at hfv
          rwa [List.getLast?_eq_none_iff] at hfv
        have hpop' : popGE (indentOf line.data) st.nodeStack = [] := by
          rw [hpop, hFnil]
          rfl
        rw [processLine_arrow_nil st line harr hpop']
        refine ⟨?_, ?_, ?_, ?_⟩
        · show st.idCounter + 1 = countC recs (n + 1)
          rw [hid, countC_succ, if_pos hCn]
        · show [(mkId st.idCounter, indentOf line.data)] = stackRef recs (n + 1)
          rw [stackRef, visList_succ_arrow recs n hAn, hFnil]
          simp only [List.reverse_nil, List.map_cons, List.map_nil]
          rw [hidOfn, hI]
        · show st.edges = refEdges recs (n + 1)
          rw [hedg, refEdges_succ, hAn, hpar]
          simp
        · show (st.nodeInfos ++ [(mkId st.idCounter,
              (⟨[(⟨stripArrowBug (jsTrim line.data)⟩ : String)],
                extractTotalCost (jsTrim line.data), [], some 0⟩ : NodeInfo))]).map
              (fun e => (e.1, e.2.children)) = ncRef recs (n + 1)
          rw [List.map_append, hnc, ncRef_succ_create recs n hCn, childrenRef_last]
          congr 1
          · rw [ncRef]
            apply List.map_congr_left
            intro k hk
            rw [childrenRef_succ, hpar]
            simp
          · simp only [List.map_cons, List.map_nil]
            rw [hidOfn]
      · obtain ⟨hjn, hcj, hij, hmax⟩ := parentIdx_spec recs n j hpar
        have hglast : ((List.range n).filter
            (fun k => visB recs n k && decide (indentAt recs k < indentAt recs n))).getLast?
            = some j := by rw [filterV_getLast, hpar]
        have hhead : (((List.range n).filter
            (fun k => visB recs n k && decide (indentAt recs k < indentAt recs n))).reverse).head?
            = some j := by rw [List.head?_reverse, hglast]
        rcases hrev : ((List.range n).filter
            (fun k => visB recs n k && decide (indentAt recs k < indentAt recs n))).reverse
          with _ | ⟨j', t⟩
        · rw [hrev] at hhead; cases hhead
        · rw [hrev] at hhead
          obtain rfl : j' = j := by injection hhead
          have hpop' : popGE (indentOf line.data) st.nodeStack
              = (idOf recs j', indentAt recs j')
                  :: t.map (fun k => (idOf recs k, indentAt recs k)) := by
            rw [hpop, hrev, List.map_cons]
          rw [processLine_arrow_cons st line (idOf recs j') (indentAt recs j') _ harr hpop']
          refine ⟨?_, ?_, ?_, ?_⟩
          · show st.idCounter + 1 = countC recs (n + 1)
            rw [hid, countC_succ, if_pos hCn]
          · show (mkId st.idCounter, indentOf line.data)
                :: (idOf recs j', indentAt recs j')
                  :: t.map (fun k => (idOf recs k, indentAt recs k))
              = stackRef recs (n + 1)
            rw [stackRef, visList_succ_arrow recs n hAn, hrev]
            simp only [List.map_cons]
            rw [hidOfn, hI]
          · show st.edges ++ [idOf recs j' ++ " --> " ++ mkId st.idCounter]
              = refEdges recs (n + 1)
            rw [hedg, refEdges_succ, hAn, hpar, hidOfn]
            simp
          · show (updateA st.nodeInfos (idOf recs j')
                (fun i => { i with children := i.children ++ [mkId st.idCounter] })
              ++ [(mkId st.idCounter,
                   (⟨[(⟨stripArrowBug (jsTrim line.data)⟩ : String)],
                    extractTotalCost (jsTrim line.data), [], some 0⟩ : NodeInfo))]).map
                (fun e => (e.1, e.2.children)) = ncRef recs (n + 1)
            rw [List.map_append, updateA_map_children_append, hnc, ncRef,
              updateC_map_of_inj (idOf recs) (fun k => childrenRef recs n k)
                (fun ch => ch ++ [mkId st.idCounter]) j'
                ((List.range n).filter (creatingB recs))
                ((List.nodup_range n).filter _)
                (List.mem_filter.mpr ⟨List.mem_range.mpr hjn, hcj⟩)
                (fun a ha b hb hab =>
                  idOf_inj recs (List.mem_filter.mp ha).2 (List.mem_filter.mp hb).2 hab)]
            rw [ncRef_succ_create recs n hCn, childrenRef_last]
            congr 1
            · apply List.map_congr_left
              intro k hk
              rw [childrenRef_succ, hpar, hAn]
              by_cases hkj : k = j'
              · subst hkj
                simp only [if_pos rfl]
                rw [hidOfn]
                simp
              · rw [if_neg hkj]
                have : ((some j' : Option Nat) == some k) = false := by
                  apply beq_eq_false_iff_ne.mpr
                  intro hc
                  exact hkj (by injection hc with h; exact h.symm)
                rw [this]
                simp
            · simp only [List.map_cons, List.map_nil]
              rw [hidOfn]
    · have hAn : arrowB recs n = false := by rw [hA]; simpa using harr
      by_cases hn0 : n = 0
      · subst hn0
        have harr' : startsArrow (jsTrim line.data) = false := by simpa using harr
        have hstnil : st.nodeStack = [] := by rw [hstk]; rfl
        rw [processLine_root st line harr' hstnil]
        have hC0 : creatingB recs 0 = true := by rw [creatingB]; simp
        refine ⟨?_, ?_, ?_, ?_⟩
        · show st.idCounter + 1 = countC recs 1
          rw [hid, countC_succ, if_pos hC0]
        · show [(mkId st.idCounter, indentOf line.data)] = stackRef recs 1
          rw [stackRef, visList_one]
          simp only [List.map_cons, List.map_nil]
          rw [hidOfn, hI]
        · show st.edges = refEdges recs 1
          rw [hedg, refEdges_succ, hAn]
          simp
        · show (st.nodeInfos ++ [(mkId st.idCounter,
              (⟨[(⟨jsTrim line.data⟩ : String)],
                extractTotalCost (jsTrim line.data), [], some 0⟩ : NodeInfo))]).map
              (fun e => (e.1, e.2.children)) = ncRef recs 1
          rw [List.map_append, hnc, ncRef_succ_create recs 0 hC0, childrenRef_last]
          congr 1
      · have hCn : creatingB recs n = false := by
          rw [creatingB, hAn]
          simpa using hn0
        have hvne := visList_ne_nil recs n (by omega)
        obtain ⟨p, rest, hstkc⟩ : ∃ p rest, st.nodeStack = p :: rest := by
          rw [hstk, stackRef]
          rcases hv : visList recs n with _ | ⟨a, t⟩
          · exact absurd hv hvne
          · exact ⟨_, _, rfl⟩
        obtain ⟨lastId, w⟩ := p
        have harr' : startsArrow (jsTrim line.data) = false := by simpa using harr
        rw [processLine_cont st line lastId w rest harr' hstkc]
        refine ⟨?_, ?_, ?_, ?_⟩
        · show st.idCounter = countC recs (n + 1)
          rw [hid, countC_succ, hCn]
          simp
        · show st.nodeStack = stackRef recs (n + 1)
          rw [hstk, stackRef, stackRef, visList_succ_cont recs n hAn hn0]
        · show st.edges = refEdges recs (n + 1)
          rw [hedg, refEdges_succ, hAn]
          simp
        · show (updateA st.nodeInfos lastId _).map (fun e => (e.1, e.2.children))
            = ncRef recs (n + 1)
          rw [updateA_map_children_eq _ _ (by
            intro i
            simp only
            split <;> rfl), hnc, ncRef_succ_noncreate recs n hCn, ncRef]
          apply List.map_congr_left
          intro k hk
          rw [childrenRef_succ, hAn]
          simp

/-- C4 counterexample: in the plan `-> A / "  -> B" / x / "  -> C"`, the
    continuation line `x` has indentation 0, which is ≤ node0's indentation,
    so under the claim's region rule node0's children would end before it:
    claimChildren gives only node1. The code, however, never pops the stack
    on non-arrow lines, so node2 also attaches to node0. -/
theorem c4_counterexample :
    ((parseCore ["-> A", "  -> B", "x", "  -> C"]).nodeInfos.map
        (fun e => (e.1, e.2.children)))
      = [("node0", ["node1", "node2"]), ("node1", []), ("node2", [])] ∧
    claimChildren (["-> A", "  -> B", "x", "  -> C"].map lineRec) 4 0
      = ["node1"] := by
  decide

/-- C4 (amended): the parsed edges and per-node children lists are exactly
    the reference values in which each arrow line attaches to the most
    recent preceding node-creating line with strictly smaller indentation
    (`parentIdx`); this is what the stack popping realizes. Non-arrow
    continuation lines never pop the stack, so they do not close a node's
    region, contrary to the claim's "next line whose indentation is ≤". -/
theorem c4_children_via_stack (lines : List String) :
    (parseCore lines).edges = refEdges (lines.map lineRec) lines.length ∧
    (parseCore lines).nodeInfos.map (fun e => (e.1, e.2.children))
      = ncRef (lines.map lineRec) lines.length := by
  have h := parse_inv lines lines.length le_rfl
  rw [List.take_length] at h
  exact ⟨h.2.2.1, h.2.2.2⟩

end RSEV
